import Mathlib

/-!
Verification of the transrangers library (transrangers.hpp, transrangers_ext.hpp).

A C++ "ranger" is a stateful closure: invoking it with a sink (a callable
taking a cursor and returning a continue/stop Bool) delivers zero or more
cursors to the sink and returns true (source exhausted) or false (the sink
stopped the traversal); the closure's captured state is mutated in place so a
later invocation resumes.  We embed this with explicit state passing:

* a sink with caller-local state `τ` is a function `c → τ → Bool × τ`
  (the C++ sink's side effects on caller locals become the `τ` component);
* a ranger with captured state `σ` over cursors `c` is a function
  `σ → (τ : Type) → Sink c τ → τ → Bool × σ × τ`
  (result, updated captured state, updated sink-local state); the function is
  parametric in the sink-state type `τ` because each combinator invokes its
  upstream ranger with a wrapped sink carrying extra local state.

Sources are Lean lists; the cursor of `all`/`skip_first`/`skip_last`/
`skip_both` is the index into the list (the C++ iterator), and dereference
(`*p`) is list indexing.
-/

namespace Transrangers

/-- Sink contract: a callable taking a cursor, returning continue/stop,
with caller-local state `τ` threaded explicitly. -/
def Sink (c τ : Type) : Type := c → τ → Bool × τ

/-- Evaluation closure of a ranger: captured state `σ`, cursor type `c`,
parametric in the sink-local state type. -/
def RangerRun (c σ : Type) : Type 1 :=
  σ → (τ : Type) → Sink c τ → τ → Bool × σ × τ

/-- A ranger bundles its evaluation closure with the initial captured state
(the C++ lambda captures' initializers). -/
structure Ranger (c σ : Type) : Type 1 where
  run : RangerRun c σ
  st : σ

/-- Canonical reference walk: deliver the cursors of `L` in order to the sink,
threading the sink state; stop at the first `false`, returning the unvisited
remainder.  This is the specification of one invocation over a known
remaining-cursor list. -/
def walk {c τ : Type} (dst : Sink c τ) : List c → τ → Bool × List c × τ
  | [], t => (true, [], t)
  | p :: L, t =>
    let d := dst p t
    if d.1 then walk dst L d.2 else (false, L, d.2)

/-- Thread the sink over every cursor of `L`, ignoring its stop decisions;
yields the final sink-local state. -/
def feedAll {c τ : Type} (dst : Sink c τ) : List c → τ → τ
  | [], t => t
  | p :: L, t => feedAll dst L (dst p t).2

/-- Instrumentation: wrap a sink so that every delivered cursor is appended
to a log carried in the sink state. -/
def logSink {c τ : Type} (dst : Sink c τ) : Sink c (List c × τ) := fun p lt =>
  let d := dst p lt.2
  (d.1, (lt.1 ++ [p], d.2))

/-- Sink that always answers continue (the shape of `accumulate`'s sink). -/
def contSink (c : Type) : Sink c Unit := fun _ _ => (true, ())

/-- Sink that always answers stop: the external "stop after one element"
driver used to exercise resumability. -/
def stopSink (c : Type) : Sink c Unit := fun _ _ => (false, ())

/-- Number of cursors of `L` the sink visits before stopping the walk
(all of `L` if it never stops). -/
def stopCount {c τ : Type} (dst : Sink c τ) : List c → τ → Nat
  | [], _ => 0
  | p :: L, t =>
    let d := dst p t
    if d.1 then stopCount dst L d.2 + 1 else 1

theorem walk_nil {c τ : Type} (dst : Sink c τ) (t : τ) :
    walk dst [] t = (true, [], t) := rfl

theorem walk_cons {c τ : Type} (dst : Sink c τ) (p : c) (L : List c) (t : τ) :
    walk dst (p :: L) t =
      (if (dst p t).1 then walk dst L (dst p t).2
       else (false, L, (dst p t).2)) := rfl

theorem walk_residual_le {c τ : Type} (dst : Sink c τ) :
    ∀ (L : List c) (t : τ), (walk dst L t).2.1.length ≤ L.length := by
  intro L
  induction L with
  | nil => intro t; simp [walk]
  | cons p L ih =>
    intro t
    simp only [walk]
    cases hd : (dst p t).1
    · simp only [Bool.false_eq_true, if_false]
      exact Nat.le_succ _
    · simp only [if_true]
      exact le_trans (ih _) (Nat.le_succ _)

theorem walk_stop_lt {c τ : Type} (dst : Sink c τ) (L : List c) (t : τ)
    (h : (walk dst L t).1 = false) : (walk dst L t).2.1.length < L.length := by
  cases L with
  | nil => simp [walk] at h
  | cons p L =>
    simp only [walk] at h ⊢
    cases hd : (dst p t).1
    · simp only [hd, Bool.false_eq_true, if_false]
      exact Nat.lt_succ_of_le le_rfl
    · simp only [hd, if_true] at h ⊢
      exact Nat.lt_succ_of_le (walk_residual_le dst L _)

/-- Behavioral contract of a live ranger (spec §3, §4.1): `Models run s L`
says that from captured state `s` the ranger interacts with every sink
exactly as the canonical walk over the remaining cursor list `L` does
(same result, same sink side effects), and that when it is stopped its
updated state models exactly the unvisited remainder — no cursor is
redelivered, none skipped.  Nothing is required of the state left behind by
an exhausting invocation (re-invoking an exhausted ranger is a documented
precondition violation). -/
def Models {c σ : Type} (run : RangerRun c σ) (s : σ) (L : List c) : Prop :=
  ∀ (τ : Type) (dst : Sink c τ) (t : τ),
    (run s τ dst t).1 = (walk dst L t).1 ∧
    (run s τ dst t).2.2 = (walk dst L t).2.2 ∧
    ((walk dst L t).1 = false →
      Models run (run s τ dst t).2.1 (walk dst L t).2.1)
  termination_by L.length
  decreasing_by exact walk_stop_lt dst L t (by assumption)

theorem Models_def {c σ : Type} (run : RangerRun c σ) (s : σ) (L : List c) :
    Models run s L ↔
      ∀ (τ : Type) (dst : Sink c τ) (t : τ),
        (run s τ dst t).1 = (walk dst L t).1 ∧
        (run s τ dst t).2.2 = (walk dst L t).2.2 ∧
        ((walk dst L t).1 = false →
          Models run (run s τ dst t).2.1 (walk dst L t).2.1) := by
  rw [Models]

theorem feedAll_append {c τ : Type} (dst : Sink c τ) :
    ∀ (L1 L2 : List c) (t : τ),
      feedAll dst (L1 ++ L2) t = feedAll dst L2 (feedAll dst L1 t) := by
  intro L1
  induction L1 with
  | nil => intro L2 t; rfl
  | cons p L ih =>
    intro L2 t
    simp only [List.cons_append, feedAll]
    exact ih _ _

/-- One invocation over a known cursor list visits an initial segment of it:
`m` cursors are delivered (threading the sink state over exactly those), the
remainder is the corresponding suffix, exhaustion means the whole list was
visited, and a stopped invocation visited at least one cursor. -/
theorem walk_spec {c τ : Type} (dst : Sink c τ) :
    ∀ (L : List c) (t : τ), ∃ m, m ≤ L.length ∧
      (walk dst L t).2.1 = L.drop m ∧
      (walk dst L t).2.2 = feedAll dst (L.take m) t ∧
      ((walk dst L t).1 = true → m = L.length) ∧
      ((walk dst L t).1 = false → 1 ≤ m) := by
  intro L
  induction L with
  | nil => intro t; exact ⟨0, by simp [walk, feedAll]⟩
  | cons p L ih =>
    intro t
    cases hd : (dst p t).1
    · refine ⟨1, by simp, ?_, ?_, ?_, ?_⟩
      · simp [walk, hd]
      · simp [walk, hd, feedAll]
      · simp [walk, hd]
      · intro _; exact le_rfl
    · obtain ⟨m, hm, h1, h2, h3, h4⟩ := ih (dst p t).2
      refine ⟨m + 1, by simpa using Nat.succ_le_succ hm, ?_, ?_, ?_, ?_⟩
      · simpa [walk, hd] using h1
      · simpa [walk, hd, feedAll] using h2
      · intro hw
        simp only [walk, hd, if_true] at hw
        simp [h3 hw]
      · intro _; exact Nat.succ_le_succ (Nat.zero_le _)

/-- The logging instrumentation records exactly the visited initial
segment and otherwise behaves as the raw sink. -/
theorem walk_log {c τ : Type} (dst : Sink c τ) :
    ∀ (L : List c) (log : List c) (t : τ),
      walk (logSink dst) L (log, t) =
        ((walk dst L t).1, (walk dst L t).2.1,
         (log ++ L.take (L.length - (walk dst L t).2.1.length),
          (walk dst L t).2.2)) := by
  intro L
  induction L with
  | nil => intro log t; simp [walk]
  | cons p L ih =>
    intro log t
    cases hd : (dst p t).1
    · have hrw : (p :: L).length - L.length = 1 := by
        simp [List.length_cons]
      simp only [walk, logSink, hd, Bool.false_eq_true, if_false, hrw,
        List.take_succ_cons, List.take_zero]
    · have hle : (walk dst L (dst p t).2).2.1.length ≤ L.length :=
        walk_residual_le dst L _
      have hrw : (p :: L).length - (walk dst L (dst p t).2).2.1.length
          = (L.length - (walk dst L (dst p t).2).2.1.length) + 1 := by
        simp only [List.length_cons]
        omega
      simp only [walk, logSink, hd, if_true, hrw, List.take_succ_cons]
      rw [ih]
      simp

/-- A sink that never stops lets any walk exhaust its list. -/
theorem walk_of_cont {c τ : Type} (dst : Sink c τ)
    (h : ∀ p t, (dst p t).1 = true) :
    ∀ (L : List c) (t : τ), walk dst L t = (true, [], feedAll dst L t) := by
  intro L
  induction L with
  | nil => intro t; rfl
  | cons p L ih =>
    intro t
    simp only [walk, h p t, if_true, feedAll]
    exact ih _

/-- Repeated invocation: invoke the ranger with the same sink until it
reports exhaustion (or the attempt budget runs out, reporting `false`). -/
def driveN {c σ τ : Type} (run : RangerRun c σ) (dst : Sink c τ) :
    Nat → σ → τ → Bool × σ × τ
  | 0, s, t => (false, s, t)
  | n + 1, s, t =>
    let o := run s τ dst t
    if o.1 then (true, o.2.1, o.2.2)
    else driveN run dst n o.2.1 o.2.2

/-- Multi-invocation soundness of the contract: driving a conforming ranger
to exhaustion (with any stateful sink, any stop pattern, and a sufficient
attempt budget) delivers exactly the modeled cursors, in order, once each:
the total log is `L` and the sink threads over exactly `L`. -/
theorem models_driveN {c : Type} :
    ∀ (k : Nat) {σ : Type} (run : RangerRun c σ) (s : σ) (L : List c),
      L.length ≤ k → Models run s L →
      ∀ (τ : Type) (dst : Sink c τ) (t : τ) (n : Nat) (log : List c),
        L.length < n →
        ∃ s', driveN run (logSink dst) n s (log, t) =
          (true, s', (log ++ L, feedAll dst L t)) := by
  intro k
  induction k with
  | zero =>
    intro σ run s L hk hm τ dst t n log hn
    cases n with
    | zero => omega
    | succ n =>
      have hL : L = [] := List.length_eq_zero.mp (Nat.le_zero.mp hk)
      subst hL
      obtain ⟨e1, e2, _⟩ := (Models_def run s []).mp hm _ (logSink dst) (log, t)
      simp only [walk] at e1 e2
      exact ⟨(run s _ (logSink dst) (log, t)).2.1, by
        simp [driveN, e1, e2, feedAll]⟩
  | succ k ih =>
    intro σ run s L hk hm τ dst t n log hn
    cases n with
    | zero => omega
    | succ n =>
      obtain ⟨e1, e2, e3⟩ := (Models_def run s L).mp hm _ (logSink dst) (log, t)
      rw [walk_log] at e1 e2 e3
      obtain ⟨m, hmle, r1, r2, r3, r4⟩ := walk_spec dst L t
      cases hw : (walk dst L t).1
      · -- this invocation was stopped after m ≥ 1 cursors; recurse
        have hm1 : 1 ≤ m := r4 hw
        have hres : Models run (run s _ (logSink dst) (log, t)).2.1 (L.drop m) := by
          have := e3 (by simp [hw])
          rwa [r1] at this
        have hlen : (L.drop m).length ≤ k := by
          simp only [List.length_drop]; omega
        have hlt : (L.drop m).length < n := by
          simp only [List.length_drop]; omega
        obtain ⟨s', hs'⟩ := ih run _ (L.drop m) hlen hres τ dst
          (feedAll dst (L.take m) t) n (log ++ L.take m) hlt
        refine ⟨s', ?_⟩
        have hcount : L.length - (walk dst L t).2.1.length = m := by
          rw [r1]; simp only [List.length_drop]; omega
        simp only [driveN, e1, hw, Bool.false_eq_true, if_false]
        have e2' : (run s _ (logSink dst) (log, t)).2.2
            = (log ++ L.take m, feedAll dst (L.take m) t) := by
          rw [e2, hcount, r2]
        rw [e2', hs', List.append_assoc, List.take_append_drop,
          ← feedAll_append, List.take_append_drop]
      · -- this invocation exhausted the remainder
        have hmlen : m = L.length := r3 hw
        have hcount : L.length - (walk dst L t).2.1.length = L.length := by
          rw [r1, hmlen]; simp
        refine ⟨(run s _ (logSink dst) (log, t)).2.1, ?_⟩
        simp only [driveN, e1, hw, if_true]
        have e2' : (run s _ (logSink dst) (log, t)).2.2
            = (log ++ L, feedAll dst L t) := by
          rw [e2, hcount, r2, hmlen]
          simp
        rw [e2']

theorem take_range' (s n m : Nat) :
    (List.range' s n).take m = List.range' s (min m n) := by
  induction m generalizing s n with
  | zero => simp
  | succ m ih =>
    cases n with
    | zero => simp
    | succ n =>
      rw [List.range'_succ s n 1, List.take_succ_cons, ih, Nat.succ_min_succ,
        List.range'_succ]

theorem drop_range' (s n m : Nat) :
    (List.range' s n).drop m = List.range' (s + m) (n - m) := by
  induction m generalizing s n with
  | zero => simp
  | succ m ih =>
    cases n with
    | zero => simp
    | succ n =>
      rw [List.range'_succ s n 1, List.drop_succ_cons, ih]
      congr 1 <;> omega

theorem getD_of_drop {α : Type} (S T : List α) (x : α) (k : Nat) (d : α)
    (h : S.drop k = x :: T) : S.getD k d = x := by
  have h0 : S[k]? = some x := by
    have h2 := List.getElem?_drop S k 0
    rw [h] at h2
    simpa using h2.symm
  simp [List.getD_eq_getElem?_getD, h0]

theorem drop_succ_of_drop {α : Type} (S T : List α) (x : α) (k : Nat)
    (h : S.drop k = x :: T) : S.drop (k + 1) = T := by
  have h2 : S.drop (k + 1) = (S.drop k).drop 1 := by rw [List.drop_drop]
  rw [h2, h, List.drop_one, List.tail_cons]

/-- Indexing cursors back through the source recovers the elements: mapping
dereference over the index block starting at `k` yields the suffix of `S`
from `k`. -/
theorem map_getD_range' {α : Type} (d : α) :
    ∀ (T S : List α) (k : Nat), S.drop k = T →
      (List.range' k T.length).map (fun i => S.getD i d) = T := by
  intro T
  induction T with
  | nil => intro S k _; simp
  | cons x T ih =>
    intro S k h
    rw [List.length_cons, List.range'_succ k T.length 1, List.map_cons]
    rw [getD_of_drop S T x k d h, ih S (k + 1) (drop_succ_of_drop S T x k h)]

/-! ### Source adaptation: `all` (transrangers.hpp lines 85-100) and the
position-shifted variants `skip_first`, `skip_last`, `skip_both`
(transrangers_ext.hpp lines 45-155).

The C++ loop is `auto it = first; while (it != last) if (!dst(it++)) { first
= it; return false; } return true;` over iterators; here iterators are list
indices, `first` is the saved captured state (left unchanged by an
exhausting invocation, exactly as in the source), and `last` is the
captured end index. -/

def allLoop (last first : Nat) (τ : Type) (dst : Sink Nat τ) :
    Nat → Nat → τ → Bool × Nat × τ
  | 0, _, t => (true, first, t)
  | fuel + 1, it, t =>
    if it < last then
      let d := dst it t
      if d.1 then allLoop last first τ dst fuel (it + 1) d.2
      else (false, it + 1, d.2)
    else (true, first, t)

/-- Evaluation closure shared by `all` and the skip variants: walk from the
saved position `first` up to `last`; the loop is driven by the remaining
distance `last - first`, which is exactly its iteration count. -/
def allRun (last : Nat) : RangerRun Nat Nat := fun first τ dst t =>
  allLoop last first τ dst (last - first) first t

/-- Ranger over a whole source: cursors 0 ≤ i < length, starting at 0. -/
def all {α : Type} (S : List α) : Ranger Nat Nat := ⟨allRun S.length, 0⟩

/-- Ranger starting one position after the source's start (`++begin`);
assumes (unvalidated) that the source is long enough. -/
def skip_first {α : Type} (S : List α) : Ranger Nat Nat := ⟨allRun S.length, 1⟩

/-- Ranger ending one position before the source's end (`--end`). -/
def skip_last {α : Type} (S : List α) : Ranger Nat Nat :=
  ⟨allRun (S.length - 1), 0⟩

/-- Ranger skipping both the first and the last position. -/
def skip_both {α : Type} (S : List α) : Ranger Nat Nat :=
  ⟨allRun (S.length - 1), 1⟩

/-- The adaptation loop is the canonical walk over the remaining index
block; on stop the saved position is the index right after the stopped-on
cursor, on exhaustion the captured `first` is returned unchanged. -/
theorem allLoop_eq_walk (last first : Nat) (τ : Type) (dst : Sink Nat τ) :
    ∀ (d it : Nat), last - it = d → ∀ t,
      allLoop last first τ dst d it t =
        ((walk dst (List.range' it (last - it)) t).1,
         if (walk dst (List.range' it (last - it)) t).1 then first
         else last - (walk dst (List.range' it (last - it)) t).2.1.length,
         (walk dst (List.range' it (last - it)) t).2.2) := by
  intro d
  induction d with
  | zero =>
    intro it hd t
    rw [hd]
    simp [allLoop, walk]
  | succ d ih =>
    intro it hd t
    have hlt : it < last := by omega
    rw [hd, List.range'_succ it d 1]
    simp only [allLoop, hlt, if_true]
    cases hds : (dst it t).1
    · simp only [Bool.false_eq_true, if_false, walk, hds]
      have hlen : (List.range' (it + 1) d).length = d := List.length_range' ..
      simp only [hlen]
      have : last - d = it + 1 := by omega
      simp [this]
    · simp only [if_true, walk, hds]
      have hd' : last - (it + 1) = d := by omega
      have := ih (it + 1) hd' (dst it t).2
      rw [hd'] at this
      exact this

/-- The source adaptation satisfies the ranger contract: from saved position
`first` it models exactly the remaining index block. -/
theorem allRun_models (last : Nat) :
    ∀ (k first : Nat), last - first ≤ k → first ≤ last →
      Models (allRun last) first (List.range' first (last - first)) := by
  intro k
  induction k with
  | zero =>
    intro first hk hle
    have hfl : first = last := by omega
    subst hfl
    rw [Models_def]
    intro τ dst t
    have heq := allLoop_eq_walk first first τ dst (first - first) first rfl t
    rw [allRun, heq]
    simp [walk]
  | succ k ih =>
    intro first hk hle
    rw [Models_def]
    intro τ dst t
    have heq := allLoop_eq_walk last first τ dst (last - first) first rfl t
    rw [allRun, heq]
    refine ⟨rfl, rfl, ?_⟩
    intro hw
    simp only [hw, Bool.false_eq_true, if_false]
    obtain ⟨m, hm, r1, r2, r3, r4⟩ := walk_spec dst (List.range' first (last - first)) t
    have hm1 : 1 ≤ m := r4 hw
    rw [r1, drop_range']
    have hlen : (List.range' first (last - first)).length = last - first :=
      List.length_range' ..
    have hml : m ≤ last - first := by
      rw [hlen] at hm; exact hm
    have hres : (List.range' (first + m) (last - first - m)).length
        = last - first - m := List.length_range' ..
    rw [hres]
    have h1 : last - (last - first - m) = first + m := by omega
    rw [h1]
    have h2 : last - first - m = last - (first + m) := by omega
    rw [h2]
    exact ih (first + m) (by omega) (by omega)

/-- C1: for every finite source `S`, the ranger `all S` delivers each
element of `S` exactly once and in source order across the whole sequence
of invocations: (i) it satisfies the resumable-walk contract over the full
index block; (ii) driving it to exhaustion with an arbitrary stateful sink
and a sufficient attempt budget logs exactly the cursors `0,…,|S|-1` in
order, and mapping dereference over them recovers `S`; (iii) within one
invocation from saved position `first`, the delivered cursors are the
contiguous block `first,…,first+m-1`; if the sink stopped, the saved
position becomes `first+m` (right after the stopped-on element) and the
invocation returns `false`, and an invocation that walks to the end returns
`true`. -/
theorem C1_all_delivers_each_element_once_in_order {α : Type}
    (S : List α) (d : α) (first : Nat) (hfirst : first ≤ S.length)
    (τ : Type) (dst : Sink Nat τ) (t : τ) (log : List Nat) (extra : Nat) :
    Models (all S).run (all S).st (List.range' 0 S.length) ∧
    (∃ s', driveN (all S).run (logSink dst) (S.length + 1 + extra)
        (all S).st (log, t)
        = (true, s', (log ++ List.range' 0 S.length,
                      feedAll dst (List.range' 0 S.length) t))) ∧
    (List.range' 0 S.length).map (fun i => S.getD i d) = S ∧
    (∃ m, m ≤ S.length - first ∧
      (allRun S.length first (List Nat × τ) (logSink dst) (log, t)).2.2.1
        = log ++ List.range' first m ∧
      ((allRun S.length first (List Nat × τ) (logSink dst) (log, t)).1 = true →
        (allRun S.length first (List Nat × τ) (logSink dst) (log, t)).2.1 = first ∧
        first + m = S.length) ∧
      ((allRun S.length first (List Nat × τ) (logSink dst) (log, t)).1 = false →
        (allRun S.length first (List Nat × τ) (logSink dst) (log, t)).2.1 = first + m ∧
        1 ≤ m)) := by
  have hmodels0 : Models (allRun S.length) 0 (List.range' 0 S.length) := by
    have h := allRun_models S.length S.length 0 (by omega) (Nat.zero_le _)
    simpa using h
  refine ⟨hmodels0, ?_, ?_, ?_⟩
  · exact models_driveN S.length (allRun S.length) 0 (List.range' 0 S.length)
      (le_of_eq (List.length_range' ..)) hmodels0 τ dst t
      (S.length + 1 + extra) log (by rw [List.length_range']; omega)
  · exact map_getD_range' d S S 0 rfl
  · obtain ⟨m, hm, r1, r2, r3, r4⟩ :=
      walk_spec dst (List.range' first (S.length - first)) t
    rw [List.length_range'] at hm
    have heq := allLoop_eq_walk S.length first (List Nat × τ) (logSink dst)
      (S.length - first) first rfl (log, t)
    have hlog := walk_log dst (List.range' first (S.length - first)) log t
    have hshow : allRun S.length first (List Nat × τ) (logSink dst) (log, t)
        = allLoop S.length first (List Nat × τ) (logSink dst)
            (S.length - first) first (log, t) := rfl
    have hreslen : (walk dst (List.range' first (S.length - first)) t).2.1.length
        = S.length - first - m := by
      rw [r1, drop_range', List.length_range']
    have htake : (List.range' first (S.length - first)).take
        ((List.range' first (S.length - first)).length
          - (walk dst (List.range' first (S.length - first)) t).2.1.length)
        = List.range' first m := by
      rw [hreslen, List.length_range', take_range']
      congr 1
      omega
    refine ⟨m, hm, ?_, ?_, ?_⟩
    · rw [hshow, heq, hlog]
      simp only
      rw [htake]
    · intro hb
      rw [hshow, heq, hlog] at hb ⊢
      simp only at hb ⊢
      rw [hb] at r3 ⊢
      simp only [if_true]
      have := r3 rfl
      rw [List.length_range'] at this
      exact ⟨by trivial, by omega⟩
    · intro hb
      rw [hshow, heq, hlog] at hb ⊢
      simp only at hb ⊢
      rw [hb]
      simp only [Bool.false_eq_true, if_false]
      have hm1 := r4 hb
      rw [hreslen]
      exact ⟨by omega, hm1⟩

/-- Closed witness for C1 at a concrete source and saved position. -/
theorem C1_witness :
    (1 ≤ ([10, 20, 30] : List Nat).length) ∧
    (Models (all [10, 20, 30]).run (all ([10, 20, 30] : List Nat)).st
        (List.range' 0 ([10, 20, 30] : List Nat).length) ∧
      (∃ s', driveN (all ([10, 20, 30] : List Nat)).run
          (logSink (contSink Nat)) (([10, 20, 30] : List Nat).length + 1 + 0)
          (all ([10, 20, 30] : List Nat)).st ([], ())
          = (true, s', ([] ++ List.range' 0 ([10, 20, 30] : List Nat).length,
              feedAll (contSink Nat) (List.range' 0 ([10, 20, 30] : List Nat).length) ()))) ∧
      (List.range' 0 ([10, 20, 30] : List Nat).length).map
          (fun i => ([10, 20, 30] : List Nat).getD i 0) = [10, 20, 30] ∧
      (∃ m, m ≤ ([10, 20, 30] : List Nat).length - 1 ∧
        (allRun ([10, 20, 30] : List Nat).length 1 (List Nat × Unit)
            (logSink (contSink Nat)) ([], ())).2.2.1 = [] ++ List.range' 1 m ∧
        ((allRun ([10, 20, 30] : List Nat).length 1 (List Nat × Unit)
            (logSink (contSink Nat)) ([], ())).1 = true →
          (allRun ([10, 20, 30] : List Nat).length 1 (List Nat × Unit)
              (logSink (contSink Nat)) ([], ())).2.1 = 1 ∧
          1 + m = ([10, 20, 30] : List Nat).length) ∧
        ((allRun ([10, 20, 30] : List Nat).length 1 (List Nat × Unit)
            (logSink (contSink Nat)) ([], ())).1 = false →
          (allRun ([10, 20, 30] : List Nat).length 1 (List Nat × Unit)
              (logSink (contSink Nat)) ([], ())).2.1 = 1 + m ∧
          1 ≤ m))) :=
  ⟨by decide,
   C1_all_delivers_each_element_once_in_order [10, 20, 30] 0 1 (by decide)
     Unit (contSink Nat) () [] 0⟩

/-- Mapping dereference over an index block recovers the corresponding
segment of the source. -/
theorem map_getD_range'_sub {α : Type} (d : α) :
    ∀ (m k : Nat) (S : List α), k + m ≤ S.length →
      (List.range' k m).map (fun i => S.getD i d) = (S.drop k).take m := by
  intro m
  induction m with
  | zero => intro k S _; simp
  | succ m ih =>
    intro k S hkm
    cases hdk : S.drop k with
    | nil =>
      have : S.length - k = 0 := by
        have := congrArg List.length hdk
        simpa using this
      omega
    | cons x T =>
      rw [List.range'_succ k m 1, List.map_cons, getD_of_drop S T x k d hdk,
        List.take_succ_cons, ih (k + 1) S (by omega)]
      rw [drop_succ_of_drop S T x k hdk]

/-- C8: on a source with at least two elements (unvalidated precondition
taken as hypothesis), `skip_first` delivers exactly the elements from the
second to the last, `skip_last` the elements from the first to the
second-to-last, and `skip_both` the elements strictly between the first and
the last, each in source order, and each satisfying the same resumable-walk
contract (stop/resume behavior) as `all`. -/
theorem C8_skip_first_last_both {α : Type} (S : List α) (d : α)
    (h2 : 2 ≤ S.length) :
    Models (skip_first S).run (skip_first S).st (List.range' 1 (S.length - 1)) ∧
    (List.range' 1 (S.length - 1)).map (fun i => S.getD i d) = S.drop 1 ∧
    Models (skip_last S).run (skip_last S).st (List.range' 0 (S.length - 1)) ∧
    (List.range' 0 (S.length - 1)).map (fun i => S.getD i d) = S.dropLast ∧
    Models (skip_both S).run (skip_both S).st (List.range' 1 (S.length - 2)) ∧
    (List.range' 1 (S.length - 2)).map (fun i => S.getD i d)
      = (S.drop 1).dropLast := by
  refine ⟨?_, ?_, ?_, ?_, ?_, ?_⟩
  · have h := allRun_models S.length S.length 1 (by omega) (by omega)
    exact h
  · rw [map_getD_range'_sub d (S.length - 1) 1 S (by omega)]
    exact List.take_of_length_le (by simp)
  · have h := allRun_models (S.length - 1) (S.length - 1) 0 (by omega)
      (Nat.zero_le _)
    simpa using h
  · rw [map_getD_range'_sub d (S.length - 1) 0 S (by omega)]
    rw [List.drop_zero, List.dropLast_eq_take]
  · have h := allRun_models (S.length - 1) (S.length - 1) 1 (by omega) (by omega)
    have he : S.length - 1 - 1 = S.length - 2 := by omega
    rw [he] at h
    exact h
  · rw [map_getD_range'_sub d (S.length - 2) 1 S (by omega)]
    rw [List.dropLast_eq_take, List.length_drop]
    congr 1

/-- Closed witness for C8 at a concrete three-element source. -/
theorem C8_witness :
    (2 ≤ ([5, 6, 7] : List Nat).length) ∧
    (Models (skip_first ([5, 6, 7] : List Nat)).run
        (skip_first ([5, 6, 7] : List Nat)).st
        (List.range' 1 (([5, 6, 7] : List Nat).length - 1)) ∧
      (List.range' 1 (([5, 6, 7] : List Nat).length - 1)).map
          (fun i => ([5, 6, 7] : List Nat).getD i 0)
        = ([5, 6, 7] : List Nat).drop 1 ∧
      Models (skip_last ([5, 6, 7] : List Nat)).run
        (skip_last ([5, 6, 7] : List Nat)).st
        (List.range' 0 (([5, 6, 7] : List Nat).length - 1)) ∧
      (List.range' 0 (([5, 6, 7] : List Nat).length - 1)).map
          (fun i => ([5, 6, 7] : List Nat).getD i 0)
        = ([5, 6, 7] : List Nat).dropLast ∧
      Models (skip_both ([5, 6, 7] : List Nat)).run
        (skip_both ([5, 6, 7] : List Nat)).st
        (List.range' 1 (([5, 6, 7] : List Nat).length - 2)) ∧
      (List.range' 1 (([5, 6, 7] : List Nat).length - 2)).map
          (fun i => ([5, 6, 7] : List Nat).getD i 0)
        = (([5, 6, 7] : List Nat).drop 1).dropLast) :=
  ⟨by decide, C8_skip_first_last_both [5, 6, 7] 0 (by decide)⟩

/-! ### filter (transrangers.hpp lines 176-184) and accumulate
(transrangers.hpp lines 496-502).

`filter(pred, rgr)` wraps the downstream sink: a cursor whose dereferenced
value fails the predicate is treated as "keep going" without being
forwarded (`pred(*p) ? dst(p) : true`).  `pred_box` only coerces the
predicate's result to a truth value, which for a Bool predicate is the
identity.  `accumulate(rgr, init)` invokes the ranger once with a sink that
folds `init = init + *p` and always answers continue. -/

def filterSink {α c τ : Type} (pred : α → Bool) (deref : c → α)
    (dst : Sink c τ) : Sink c τ := fun p t =>
  if pred (deref p) then dst p t else (true, t)

def filterRun {α c σ : Type} (pred : α → Bool) (deref : c → α)
    (run : RangerRun c σ) : RangerRun c σ := fun s τ dst t =>
  run s τ (filterSink pred deref dst) t

def filter {α c σ : Type} (pred : α → Bool) (deref : c → α)
    (r : Ranger c σ) : Ranger c σ :=
  ⟨filterRun pred deref r.run, r.st⟩

def accumulateRun {β c σ : Type} [Add β] (deref : c → β) (r : Ranger c σ)
    (init : β) : Bool × σ × β :=
  r.run r.st β (fun p a => (true, a + deref p)) init

def accumulate {β c σ : Type} [Add β] (deref : c → β) (r : Ranger c σ)
    (init : β) : β :=
  (accumulateRun deref r init).2.2

theorem walk_filter {α c τ : Type} (pred : α → Bool) (deref : c → α)
    (dst : Sink c τ) :
    ∀ (L : List c) (t : τ),
      (walk (filterSink pred deref dst) L t).1
        = (walk dst (L.filter (fun p => pred (deref p))) t).1 ∧
      (walk (filterSink pred deref dst) L t).2.2
        = (walk dst (L.filter (fun p => pred (deref p))) t).2.2 ∧
      (walk (filterSink pred deref dst) L t).2.1.filter (fun p => pred (deref p))
        = (walk dst (L.filter (fun p => pred (deref p))) t).2.1 := by
  intro L
  induction L with
  | nil => intro t; exact ⟨rfl, rfl, rfl⟩
  | cons p L ih =>
    intro t
    cases hp : pred (deref p)
    · have hstep : walk (filterSink pred deref dst) (p :: L) t
          = walk (filterSink pred deref dst) L t := by
        simp [walk, filterSink, hp]
      have hf : (p :: L).filter (fun p => pred (deref p))
          = L.filter (fun p => pred (deref p)) := by
        simp [List.filter_cons, hp]
      rw [hstep, hf]
      exact ih t
    · have hf : (p :: L).filter (fun p => pred (deref p))
          = p :: L.filter (fun p => pred (deref p)) := by
        simp [List.filter_cons, hp]
      rw [hf]
      cases hd : (dst p t).1
      · have h1 : walk (filterSink pred deref dst) (p :: L) t
            = (false, L, (dst p t).2) := by
          simp [walk, filterSink, hp, hd]
        have h2 : walk dst (p :: L.filter (fun p => pred (deref p))) t
            = (false, L.filter (fun p => pred (deref p)), (dst p t).2) := by
          simp [walk, hd]
        rw [h1, h2]
        exact ⟨rfl, rfl, rfl⟩
      · have h1 : walk (filterSink pred deref dst) (p :: L) t
            = walk (filterSink pred deref dst) L (dst p t).2 := by
          simp [walk, filterSink, hp, hd]
        have h2 : walk dst (p :: L.filter (fun p => pred (deref p))) t
            = walk dst (L.filter (fun p => pred (deref p))) (dst p t).2 := by
          simp [walk, hd]
        rw [h1, h2]
        exact ih (dst p t).2

/-- The filter combinator preserves the ranger contract, restricting the
modeled cursor list to the cursors whose dereferenced value passes the
predicate (no extra state). -/
theorem filterRun_models {α c σ : Type} (pred : α → Bool) (deref : c → α)
    (run : RangerRun c σ) :
    ∀ (k : Nat) (L : List c) (s : σ), L.length ≤ k → Models run s L →
      Models (filterRun pred deref run) s
        (L.filter (fun p => pred (deref p))) := by
  intro k
  induction k with
  | zero =>
    intro L s hk hm
    have hL : L = [] := List.length_eq_zero.mp (Nat.le_zero.mp hk)
    subst hL
    rw [Models_def]
    intro τ dst t
    obtain ⟨e1, e2, _⟩ := (Models_def run s []).mp hm τ (filterSink pred deref dst) t
    simp only [walk] at e1 e2
    refine ⟨?_, ?_, ?_⟩
    · exact e1
    · exact e2
    · intro hw
      simp [walk] at hw
  | succ k ih =>
    intro L s hk hm
    rw [Models_def]
    intro τ dst t
    obtain ⟨e1, e2, e3⟩ := (Models_def run s L).mp hm τ (filterSink pred deref dst) t
    obtain ⟨w1, w2, w3⟩ := walk_filter pred deref dst L t
    refine ⟨?_, ?_, ?_⟩
    · rw [filterRun, e1, w1]
    · rw [filterRun, e2, w2]
    · intro hw
      have hwf : (walk (filterSink pred deref dst) L t).1 = false := by
        rw [w1, hw]
      have hres := e3 hwf
      have hlen : (walk (filterSink pred deref dst) L t).2.1.length ≤ k := by
        have := walk_stop_lt (filterSink pred deref dst) L t hwf
        omega
      have := ih (walk (filterSink pred deref dst) L t).2.1
        (run s τ (filterSink pred deref dst) t).2.1 hlen hres
      rw [w3] at this
      exact this

theorem feedAll_fold {β c : Type} [Add β] (deref : c → β) :
    ∀ (L : List c) (a : β),
      feedAll (fun p a => (true, a + deref p)) L a
        = List.foldl (fun a p => a + deref p) a L := by
  intro L
  induction L with
  | nil => intro a; rfl
  | cons p L ih => intro a; exact ih _

theorem map_filter_comp {c β : Type} (f : c → β) (P : β → Bool) :
    ∀ (l : List c),
      (l.filter (fun x => P (f x))).map f = (l.map f).filter P := by
  intro l
  induction l with
  | nil => rfl
  | cons x l ih =>
    cases hp : P (f x)
    · simp [List.filter_cons, hp, ih]
    · simp [List.filter_cons, hp, ih]

theorem foldl_add_eq_add_sum : ∀ (l : List Nat) (a : Nat),
    List.foldl (fun a x => a + x) a l = a + l.sum := by
  intro l
  induction l with
  | nil => intro a; simp
  | cons x l ih =>
    intro a
    simp only [List.foldl_cons, List.sum_cons, ih]
    omega

/-- C6: `accumulate(filter(P, all(S)), 0)` equals the sum of exactly the
elements of `S` satisfying `P`; `accumulate`'s sink always answers
continue, so the single invocation it performs reports exhausted; and on
the concrete scenario S = [1,2,3,4] with the odd predicate the result
is 4. -/
theorem C6_accumulate_filter_sum (S : List Nat) (P : Nat → Bool) :
    accumulate (fun i => S.getD i 0)
        (filter P (fun i => S.getD i 0) (all S)) 0 = (S.filter P).sum ∧
    (accumulateRun (fun i => S.getD i 0)
        (filter P (fun i => S.getD i 0) (all S)) 0).1 = true ∧
    accumulate (fun i => ([1, 2, 3, 4] : List Nat).getD i 0)
        (filter (fun a => a % 2 == 1)
          (fun i => ([1, 2, 3, 4] : List Nat).getD i 0)
          (all ([1, 2, 3, 4] : List Nat))) 0 = 4 := by
  have hall : Models (allRun S.length) 0 (List.range' 0 S.length) := by
    simpa using allRun_models S.length S.length 0 (by omega) (Nat.zero_le _)
  have hfilt : Models (filterRun P (fun i => S.getD i 0) (allRun S.length)) 0
      ((List.range' 0 S.length).filter (fun i => P (S.getD i 0))) :=
    filterRun_models P (fun i => S.getD i 0) (allRun S.length) S.length
      (List.range' 0 S.length) 0 (le_of_eq (List.length_range' ..)) hall
  have hcont : ∀ (p : Nat) (a : Nat),
      ((fun (p : Nat) (a : Nat) => (true, a + S.getD p 0)) p a).1 = true :=
    fun _ _ => rfl
  obtain ⟨e1, e2, _⟩ := (Models_def _ _ _).mp hfilt Nat
    (fun p a => (true, a + S.getD p 0)) 0
  rw [walk_of_cont _ hcont] at e1 e2
  have hval : accumulate (fun i => S.getD i 0)
      (filter P (fun i => S.getD i 0) (all S)) 0
      = feedAll (fun p a => (true, a + S.getD p 0))
          ((List.range' 0 S.length).filter (fun i => P (S.getD i 0))) 0 := e2
  refine ⟨?_, e1, by decide⟩
  rw [hval, feedAll_fold]
  have hmap : ((List.range' 0 S.length).filter (fun i => P (S.getD i 0))).map
      (fun i => S.getD i 0) = S.filter P := by
    rw [map_filter_comp, map_getD_range' 0 S S 0 rfl]
  calc List.foldl (fun a p => a + S.getD p 0) 0
        ((List.range' 0 S.length).filter (fun i => P (S.getD i 0)))
      = List.foldl (fun a x => a + x) 0
          (((List.range' 0 S.length).filter (fun i => P (S.getD i 0))).map
            (fun i => S.getD i 0)) := by rw [List.foldl_map]
    _ = (S.filter P).sum := by rw [hmap, foldl_add_eq_add_sum]; omega

/-! ### take (transrangers.hpp lines 257-270).

`take(n, rgr)` captures a mutable `int n`; each invocation does
`if (n) return rgr([&](p){ --n; return dst(p) && (n != 0); }) || (n == 0);
else return true;`.  The counter is part of the captured state and persists
across invocations.  The machine `int` is modeled as `Int` (its value never
approaches the overflow boundary in defined executions). -/

def takeSink {c τ : Type} (dst : Sink c τ) : Sink c (Int × τ) := fun p nt =>
  let n' := nt.1 - 1
  let d := dst p nt.2
  (d.1 && decide (n' ≠ 0), (n', d.2))

def takeRun {c σ : Type} (run : RangerRun c σ) : RangerRun c (Int × σ) :=
  fun ns τ dst t =>
    if ns.1 ≠ 0 then
      let o := run ns.2 (Int × τ) (takeSink dst) (ns.1, t)
      (o.1 || decide (o.2.2.1 = 0), (o.2.2.1, o.2.1), o.2.2.2)
    else (true, ns, t)

def take {c σ : Type} (n : Int) (r : Ranger c σ) : Ranger c (Int × σ) :=
  ⟨takeRun r.run, (n, r.st)⟩

theorem stopCount_le {c τ : Type} (dst : Sink c τ) :
    ∀ (L : List c) (t : τ), stopCount dst L t ≤ L.length := by
  intro L
  induction L with
  | nil => intro t; simp [stopCount]
  | cons p L ih =>
    intro t
    simp only [stopCount, List.length_cons]
    cases hd : (dst p t).1
    · simp
    · simp only [if_true]
      exact Nat.succ_le_succ (ih _)

theorem stopCount_pos {c τ : Type} (dst : Sink c τ) (p : c) (L : List c)
    (t : τ) : 1 ≤ stopCount dst (p :: L) t := by
  simp only [stopCount]
  cases hd : (dst p t).1 <;> simp

theorem stopCount_log {c τ : Type} (dst : Sink c τ) :
    ∀ (L : List c) (log : List c) (t : τ),
      stopCount (logSink dst) L (log, t) = stopCount dst L t := by
  intro L
  induction L with
  | nil => intro log t; rfl
  | cons p L ih =>
    intro log t
    simp only [stopCount, logSink]
    cases hd : (dst p t).1
    · simp [hd]
    · simp [hd, ih]

theorem feedAll_log {c τ : Type} (dst : Sink c τ) :
    ∀ (L : List c) (log : List c) (t : τ),
      feedAll (logSink dst) L (log, t) = (log ++ L, feedAll dst L t) := by
  intro L
  induction L with
  | nil => intro log t; simp [feedAll]
  | cons p L ih =>
    intro log t
    simp only [feedAll, logSink]
    rw [ih]
    simp

theorem stopCount_cont {c τ : Type} (dst : Sink c τ)
    (h : ∀ p t, (dst p t).1 = true) :
    ∀ (L : List c) (t : τ), stopCount dst L t = L.length := by
  intro L
  induction L with
  | nil => intro t; rfl
  | cons p L ih =>
    intro t
    simp [stopCount, h p t, ih]

/-- With a positive remaining count not exceeding the upstream length, the
count-down sink stops the upstream walk after exactly `stopCount` cursors
of the first `n` (either because the downstream sink stopped or because the
count reached zero on the n-th delivery). -/
theorem walk_takeSink_pos {c τ : Type} (dst : Sink c τ) :
    ∀ (L : List c) (n : Nat) (t : τ), 0 < n → n ≤ L.length →
      walk (takeSink dst) L ((n : Int), t)
        = (false, L.drop (stopCount dst (L.take n) t),
           ((n : Int) - (stopCount dst (L.take n) t : Int),
            feedAll dst (L.take (stopCount dst (L.take n) t)) t)) := by
  intro L
  induction L with
  | nil => intro n t hn hl; simp at hl; omega
  | cons p L ih =>
    intro n t hn hl
    cases n with
    | zero => omega
    | succ k =>
      rw [List.take_succ_cons]
      cases hd : (dst p t).1
      · have hsc : stopCount dst (p :: L.take k) t = 1 := by
          simp [stopCount, hd]
        rw [hsc]
        have hw : walk (takeSink dst) (p :: L) (((k + 1 : Nat) : Int), t)
            = (false, L, (((k + 1 : Nat) : Int) - 1, (dst p t).2)) := by
          simp [walk, takeSink, hd]
        rw [hw]
        simp [feedAll, hd]
      · cases k with
        | zero =>
          have hsc : stopCount dst (p :: L.take 0) t = 1 := by
            simp [stopCount, hd]
          rw [hsc]
          have hw : walk (takeSink dst) (p :: L) (((1 : Nat) : Int), t)
              = (false, L, (((1 : Nat) : Int) - 1, (dst p t).2)) := by
            simp [walk, takeSink, hd]
          rw [hw]
          simp [feedAll]
        | succ j =>
          have hsc : stopCount dst (p :: L.take (j + 1)) t
              = stopCount dst (L.take (j + 1)) (dst p t).2 + 1 := by
            simp [stopCount, hd]
          rw [hsc]
          have hw : walk (takeSink dst) (p :: L) (((j + 2 : Nat) : Int), t)
              = walk (takeSink dst) L (((j + 2 : Nat) : Int) - 1, (dst p t).2) := by
            have hne : ((j + 2 : Nat) : Int) - 1 ≠ 0 := by push_cast; omega
            simp [walk, takeSink, hd, hne]
            intro h0
            omega
          have hcast : ((j + 2 : Nat) : Int) - 1 = ((j + 1 : Nat) : Int) := by
            push_cast; ring
          rw [hw, hcast, ih (j + 1) (dst p t).2 (by omega) (by simpa using hl)]
          have hint : ((j + 1 : Nat) : Int)
                - (stopCount dst (L.take (j + 1)) (dst p t).2 : Int)
              = ((j + 2 : Nat) : Int)
                - ((stopCount dst (L.take (j + 1)) (dst p t).2 + 1 : Nat) : Int) := by
            push_cast; ring
          rw [List.drop_succ_cons, List.take_succ_cons, hint]
          rfl

/-- With a negative count, the count-down sink never reaches zero, so it is
transparent: the walk behaves exactly as with the raw sink, the count
decreasing by the number of cursors visited (staying negative). -/
theorem walk_takeSink_neg {c τ : Type} (dst : Sink c τ) :
    ∀ (L : List c) (n : Int) (t : τ), n < 0 →
      walk (takeSink dst) L (n, t)
        = ((walk dst L t).1, (walk dst L t).2.1,
           (n - ((L.length - (walk dst L t).2.1.length : Nat) : Int),
            (walk dst L t).2.2)) := by
  intro L
  induction L with
  | nil => intro n t hn; simp [walk]
  | cons p L ih =>
    intro n t hn
    have hne : n - 1 ≠ 0 := by omega
    cases hd : (dst p t).1
    · have h1 : walk (takeSink dst) (p :: L) (n, t)
          = (false, L, (n - 1, (dst p t).2)) := by
        simp [walk, takeSink, hd]
      have h2 : walk dst (p :: L) t = (false, L, (dst p t).2) := by
        simp [walk, hd]
      rw [h1, h2]
      simp
    · have h1 : walk (takeSink dst) (p :: L) (n, t)
          = walk (takeSink dst) L (n - 1, (dst p t).2) := by
        simp [walk, takeSink, hd, hne]
      have h2 : walk dst (p :: L) t = walk dst L (dst p t).2 := by
        simp [walk, hd]
      rw [h1, h2, ih (n - 1) (dst p t).2 (by omega)]
      have hrl : (walk dst L (dst p t).2).2.1.length ≤ L.length :=
        walk_residual_le dst L _
      have hint : n - 1 - ((L.length - (walk dst L (dst p t).2).2.1.length : Nat) : Int)
          = n - (((p :: L).length - (walk dst L (dst p t).2).2.1.length : Nat) : Int) := by
        rw [List.length_cons]
        push_cast [Nat.cast_sub hrl, Nat.cast_sub (le_trans hrl (Nat.le_succ _))]
        ring
      rw [hint]

/-- One invocation of `take` under a positive count `n ≤ |remaining|`
(with logging instrumentation): exactly `stopCount` cursors of the first
`n` are delivered; the invocation returns true exactly when the count
reached zero (quota hit), even if the downstream sink stopped on that very
element; otherwise it forwards the stop. -/
theorem takeRun_invoke {c σ : Type} (run : RangerRun c σ) (s : σ) (L : List c)
    (hm : Models run s L) (n : Nat) (hn : 0 < n) (hl : n ≤ L.length)
    (τ : Type) (dst : Sink c τ) (t : τ) (log : List c) :
    ∃ s', takeRun run ((n : Int), s) (List c × τ) (logSink dst) (log, t)
        = ((decide (stopCount dst (L.take n) t = n) : Bool),
           ((n : Int) - (stopCount dst (L.take n) t : Int), s'),
           (log ++ L.take (stopCount dst (L.take n) t),
            feedAll dst (L.take (stopCount dst (L.take n) t)) t)) ∧
      Models run s' (L.drop (stopCount dst (L.take n) t)) ∧
      1 ≤ stopCount dst (L.take n) t ∧ stopCount dst (L.take n) t ≤ n := by
  have hwalk := walk_takeSink_pos (logSink dst) L n (log, t) hn hl
  rw [stopCount_log, feedAll_log] at hwalk
  obtain ⟨e1, e2, e3⟩ := (Models_def run s L).mp hm (Int × (List c × τ))
    (takeSink (logSink dst)) ((n : Int), (log, t))
  rw [hwalk] at e1 e2 e3
  have hres := e3 rfl
  have hm1 : 1 ≤ stopCount dst (L.take n) t := by
    cases L with
    | nil => simp at hl; omega
    | cons x Xs =>
      cases n with
      | zero => omega
      | succ k =>
        rw [List.take_succ_cons]
        exact stopCount_pos dst x (Xs.take k) t
  have hmn : stopCount dst (L.take n) t ≤ n := by
    have h1 := stopCount_le dst (L.take n) t
    have h2 : (L.take n).length ≤ n := by
      rw [List.length_take]
      exact min_le_left _ _
    omega
  refine ⟨(run s (Int × (List c × τ)) (takeSink (logSink dst))
    ((n : Int), (log, t))).2.1, ?_, hres, hm1, hmn⟩
  have hnz : ((n : Int)) ≠ 0 := by
    omega
  simp only [takeRun]
  rw [e1, e2]
  simp only [Bool.false_or]
  rw [if_pos hnz]
  congr 1
  rw [decide_eq_decide]
  omega

/-- Driving `take n` to exhaustion (any sink, any stop pattern, at least
`n` attempts) delivers exactly the first `n` modeled cursors, once each,
in order; the counter ends at zero. -/
theorem take_driveN {c σ : Type} (run : RangerRun c σ) :
    ∀ (k n : Nat) (s : σ) (L : List c), n ≤ k → Models run s L →
      0 < n → n ≤ L.length →
      ∀ (fuel : Nat), n ≤ fuel → ∀ (τ : Type) (dst : Sink c τ) (t : τ)
        (log : List c),
      ∃ s', driveN (takeRun run) (logSink dst) fuel ((n : Int), s) (log, t)
          = (true, ((0 : Int), s'),
             (log ++ L.take n, feedAll dst (L.take n) t)) := by
  intro k
  induction k with
  | zero => intro n s L hk _ hn _; omega
  | succ k ih =>
    intro n s L hk hm hn hl fuel hfuel τ dst t log
    cases fuel with
    | zero => omega
    | succ f =>
      obtain ⟨s', hinv, hres, h1m, hmn⟩ :=
        takeRun_invoke run s L hm n hn hl τ dst t log
      by_cases hstop : stopCount dst (L.take n) t = n
      · refine ⟨s', ?_⟩
        rw [driveN, hinv, hstop]
        simp
      · have hlt : stopCount dst (L.take n) t < n := by omega
        have hcast : (n : Int) - (stopCount dst (L.take n) t : Int)
            = ((n - stopCount dst (L.take n) t : Nat) : Int) := by
          push_cast [Nat.cast_sub (le_of_lt hlt)]
          ring
        obtain ⟨s'', hdrive⟩ := ih (n - stopCount dst (L.take n) t) s'
          (L.drop (stopCount dst (L.take n) t)) (by omega) hres (by omega)
          (by rw [List.length_drop]; omega) f (by omega) τ dst
          (feedAll dst (L.take (stopCount dst (L.take n) t)) t)
          (log ++ L.take (stopCount dst (L.take n) t))
        refine ⟨s'', ?_⟩
        rw [driveN, hinv]
        have hb : (decide (stopCount dst (L.take n) t = n) : Bool) = false := by
          simp [hstop]
        rw [hb]
        simp only [Bool.false_eq_true, if_false]
        rw [hcast, hdrive, List.append_assoc, ← List.take_add, ← feedAll_append,
          ← List.take_add]
        have : stopCount dst (L.take n) t + (n - stopCount dst (L.take n) t)
            = n := by omega
        rw [this]

/-- Driving `take n` with the stop-after-one-element external sink: each
invocation delivers exactly one cursor and decrements the counter; the
first `n - 1` invocations return false, and the invocation delivering the
n-th cursor returns true. -/
theorem take_stopSink_drive {c σ : Type} (run : RangerRun c σ) :
    ∀ (j n : Nat) (s : σ) (L : List c), Models run s L →
      0 < n → n ≤ L.length → j ≤ n → ∀ (log : List c),
      ∃ s', driveN (takeRun run) (logSink (stopSink c)) j ((n : Int), s)
          (log, ())
        = ((decide (j = n) : Bool), ((n : Int) - (j : Int), s'),
           (log ++ L.take j, ())) := by
  intro j
  induction j with
  | zero =>
    intro n s L hm hn hl hj log
    refine ⟨s, ?_⟩
    have : (decide (0 = n) : Bool) = false := by
      simp; omega
    rw [driveN, this]
    simp
  | succ j ih =>
    intro n s L hm hn hl hj log
    obtain ⟨s', hinv, hres, h1m, hmn⟩ :=
      takeRun_invoke run s L hm n hn hl Unit (stopSink c) () log
    have hsc : stopCount (stopSink c) (L.take n) () = 1 := by
      cases L with
      | nil => simp at hl; omega
      | cons x Xs =>
        cases n with
        | zero => omega
        | succ k =>
          rw [List.take_succ_cons]
          simp [stopCount, stopSink]
    rw [hsc] at hinv hres
    have hfeed : feedAll (stopSink c) (L.take 1) () = () := rfl
    cases n with
    | zero => omega
    | succ m =>
      cases m with
      | zero =>
        -- n = 1 : this invocation reaches the quota and returns true
        have hj0 : j = 0 := by omega
        subst hj0
        refine ⟨s', ?_⟩
        rw [driveN, hinv]
        simp [hfeed]
      | succ m' =>
        -- n ≥ 2 : this invocation returns false, recurse
        have hb : (decide (1 = m' + 1 + 1) : Bool) = false := by
          simp
        rw [hb] at hinv
        obtain ⟨s'', hdrive⟩ := ih (m' + 1) s' (L.drop 1) hres (by omega)
          (by rw [List.length_drop]; omega) (by omega) (log ++ L.take 1)
        refine ⟨s'', ?_⟩
        rw [driveN, hinv]
        simp only [Bool.false_eq_true, if_false]
        rw [hfeed]
        have hcast : ((m' + 1 + 1 : Nat) : Int) - ((1 : Nat) : Int)
            = ((m' + 1 : Nat) : Int) := by
          push_cast; ring
        rw [hcast, hdrive]
        have hdec : (decide (j = m' + 1) : Bool) = decide (j + 1 = m' + 1 + 1) := by
          rw [decide_eq_decide]
          omega
        have hint : ((m' + 1 : Nat) : Int) - (j : Int)
            = ((m' + 1 + 1 : Nat) : Int) - ((j + 1 : Nat) : Int) := by
          push_cast; ring
        have hlist : log ++ List.take 1 L ++ List.take j (List.drop 1 L)
            = log ++ List.take (j + 1) L := by
          rw [List.append_assoc, ← List.take_add, Nat.add_comm 1 j]
        rw [hdec, hint, hlist]

/-- C2: for every conforming ranger with at least `n > 0` remaining
cursors, `take n` delivers exactly the first `n`, in order, once each,
across any number of invocations — the counter persists across invocations
and ends at zero: (a) any drive with at least `n` attempts and an arbitrary
stateful sink logs exactly the first `n` cursors and reports exhausted;
(b) when the downstream sink keeps answering continue, the single
invocation delivering the n-th cursor returns true (exhausted), not
stopped; (c) when an external sink stops after each element, each of the
first `n` invocations delivers exactly one cursor, returning false until
the invocation on which the n-th cursor is delivered, which returns
true. -/
theorem C2_take_delivers_first_n {c σ : Type} (run : RangerRun c σ) (s : σ)
    (L : List c) (hm : Models run s L) (n : Nat) (hn : 0 < n)
    (hl : n ≤ L.length) :
    (∀ (τ : Type) (dst : Sink c τ) (t : τ) (log : List c) (extra : Nat),
      ∃ s', driveN (takeRun run) (logSink dst) (n + extra) ((n : Int), s)
          (log, t)
        = (true, ((0 : Int), s'),
           (log ++ L.take n, feedAll dst (L.take n) t))) ∧
    (∃ s', takeRun run ((n : Int), s) (List c × Unit) (logSink (contSink c))
        ([], ())
      = (true, ((0 : Int), s'), (L.take n, ()))) ∧
    (∀ (j : Nat), j ≤ n → ∀ (log : List c),
      ∃ s', driveN (takeRun run) (logSink (stopSink c)) j ((n : Int), s)
          (log, ())
        = ((decide (j = n) : Bool), ((n : Int) - (j : Int), s'),
           (log ++ L.take j, ()))) := by
  refine ⟨?_, ?_, ?_⟩
  · intro τ dst t log extra
    exact take_driveN run n n s L le_rfl hm hn hl (n + extra) (by omega)
      τ dst t log
  · obtain ⟨s', hinv, _, _, _⟩ :=
      takeRun_invoke run s L hm n hn hl Unit (contSink c) () []
    have hsc : stopCount (contSink c) (L.take n) () = n := by
      rw [stopCount_cont (contSink c) (fun _ _ => rfl), List.length_take]
      omega
    rw [hsc] at hinv
    refine ⟨s', ?_⟩
    rw [hinv]
    have hd : (decide (n = n) : Bool) = true := by simp
    have hz : (n : Int) - (n : Int) = 0 := by ring
    have hf : feedAll (contSink c) (L.take n) () = () := rfl
    rw [hd, hz, hf]
    simp
  · intro j hj log
    exact take_stopSink_drive run j n s L hm hn hl hj log

/-- Closed witness for C2 over the source adaptation of a 3-element list
with quota 2. -/
theorem C2_witness :
    (0 < 2) ∧ (2 ≤ (List.range' 0 3).length) ∧
    ((∀ (τ : Type) (dst : Sink Nat τ) (t : τ) (log : List Nat) (extra : Nat),
      ∃ s', driveN (takeRun (allRun 3)) (logSink dst) (2 + extra)
          ((2 : Nat), 0) (log, t)
        = (true, ((0 : Int), s'),
           (log ++ (List.range' 0 3).take 2,
            feedAll dst ((List.range' 0 3).take 2) t))) ∧
    (∃ s', takeRun (allRun 3) ((2 : Nat), 0) (List Nat × Unit)
        (logSink (contSink Nat)) ([], ())
      = (true, ((0 : Int), s'), ((List.range' 0 3).take 2, ()))) ∧
    (∀ (j : Nat), j ≤ 2 → ∀ (log : List Nat),
      ∃ s', driveN (takeRun (allRun 3)) (logSink (stopSink Nat)) j
          ((2 : Nat), 0) (log, ())
        = ((decide (j = 2) : Bool), (((2 : Nat) : Int) - (j : Int), s'),
           (log ++ (List.range' 0 3).take j, ())))) :=
  ⟨by decide, by decide,
   C2_take_delivers_first_n (allRun 3) 0 (List.range' 0 3)
     (by simpa using allRun_models 3 3 0 (by omega) (by omega))
     2 (by decide) (by decide)⟩

/-- With a negative count, `take` preserves the ranger contract for the
same cursor list: the quota never triggers (both guards test only equality
with zero and the counter stays negative), so `take n rgr` and `rgr`
interact identically with every sink. -/
theorem takeRun_models_neg {c σ : Type} (run : RangerRun c σ) :
    ∀ (k : Nat) (L : List c) (n : Int) (s : σ), L.length ≤ k → n < 0 →
      Models run s L → Models (takeRun run) ((n, s)) L := by
  intro k
  induction k with
  | zero =>
    intro L n s hk hneg hm
    have hL : L = [] := List.length_eq_zero.mp (Nat.le_zero.mp hk)
    subst hL
    rw [Models_def]
    intro τ dst t
    obtain ⟨e1, e2, _⟩ := (Models_def run s []).mp hm (Int × τ)
      (takeSink dst) (n, t)
    simp only [walk] at e1 e2 ⊢
    have hnz : n ≠ 0 := by omega
    refine ⟨?_, ?_, ?_⟩
    · simp only [takeRun]
      rw [if_pos hnz, e1, e2]
      simp [hnz]
    · simp only [takeRun]
      rw [if_pos hnz, e2]
    · intro hw
      simp at hw
  | succ k ih =>
    intro L n s hk hneg hm
    rw [Models_def]
    intro τ dst t
    obtain ⟨e1, e2, e3⟩ := (Models_def run s L).mp hm (Int × τ)
      (takeSink dst) (n, t)
    rw [walk_takeSink_neg dst L n t hneg] at e1 e2 e3
    have hcnt : n - ((L.length - (walk dst L t).2.1.length : Nat) : Int) < 0 := by
      have h0 : (0 : Int) ≤ ((L.length - (walk dst L t).2.1.length : Nat) : Int) :=
        Int.natCast_nonneg _
      omega
    have hnz : n ≠ 0 := by omega
    have hst : (takeRun run (n, s) τ dst t).2.1
        = (n - ((L.length - (walk dst L t).2.1.length : Nat) : Int),
           (run s (Int × τ) (takeSink dst) (n, t)).2.1) := by
      simp only [takeRun]
      rw [if_pos hnz, e2]
    refine ⟨?_, ?_, ?_⟩
    · simp only [takeRun]
      rw [if_pos hnz, e1, e2]
      simp only
      have hdz : (decide (n - ((L.length - (walk dst L t).2.1.length : Nat) : Int)
          = 0) : Bool) = false := by
        simp
        omega
      rw [hdz, Bool.or_false]
    · simp only [takeRun]
      rw [if_pos hnz, e2]
    · intro hw
      have hw' : ((walk dst L t).1, (walk dst L t).2.1,
          (n - ((L.length - (walk dst L t).2.1.length : Nat) : Int),
           (walk dst L t).2.2)).1 = false := by simpa using hw
      have hres := e3 hw'
      have hlen : (walk dst L t).2.1.length ≤ k := by
        have := walk_stop_lt dst L t hw
        omega
      have hrec := ih (walk dst L t).2.1
        (n - ((L.length - (walk dst L t).2.1.length : Nat) : Int))
        (run s (Int × τ) (takeSink dst) (n, t)).2.1 hlen hcnt hres
      rw [hst]
      exact hrec

/-- C10: for every conforming ranger and every negative count `n`,
`take n rgr` is behaviorally equivalent to `rgr` itself — it satisfies the
contract for the same cursor list (same deliveries, same order, same
results across all invocations), and the per-invocation result and sink
side effects coincide with those of `rgr`; immediate exhaustion with
nothing delivered happens exactly in the `n = 0` case. -/
theorem C10_take_negative_equals_upstream {c σ : Type} (run : RangerRun c σ)
    (s : σ) (L : List c) (n : Int) (hneg : n < 0) (hm : Models run s L) :
    Models (takeRun run) ((n, s)) L ∧
    (∀ (τ : Type) (dst : Sink c τ) (t : τ),
      (takeRun run (n, s) τ dst t).1 = (run s τ dst t).1 ∧
      (takeRun run (n, s) τ dst t).2.2 = (run s τ dst t).2.2) ∧
    (∀ (σ' : Type) (s' : σ') (run' : RangerRun c σ') (τ : Type)
        (dst : Sink c τ) (t : τ),
      takeRun run' ((0 : Int), s') τ dst t = (true, ((0 : Int), s'), t)) := by
  have hmt := takeRun_models_neg run L.length L n s le_rfl hneg hm
  refine ⟨hmt, ?_, ?_⟩
  · intro τ dst t
    obtain ⟨f1, f2, _⟩ := (Models_def _ _ _).mp hmt τ dst t
    obtain ⟨g1, g2, _⟩ := (Models_def run s L).mp hm τ dst t
    exact ⟨by rw [f1, g1], by rw [f2, g2]⟩
  · intro σ' s' run' τ dst t
    simp [takeRun]

/-- Closed witness for C10 at count -1 over a 2-element source. -/
theorem C10_witness :
    ((-1 : Int) < 0) ∧
    (Models (takeRun (allRun 2)) (((-1 : Int), 0)) (List.range' 0 2) ∧
    (∀ (τ : Type) (dst : Sink Nat τ) (t : τ),
      (takeRun (allRun 2) ((-1 : Int), 0) τ dst t).1 = (allRun 2 0 τ dst t).1 ∧
      (takeRun (allRun 2) ((-1 : Int), 0) τ dst t).2.2
        = (allRun 2 0 τ dst t).2.2) ∧
    (∀ (σ' : Type) (s' : σ') (run' : RangerRun Nat σ') (τ : Type)
        (dst : Sink Nat τ) (t : τ),
      takeRun run' ((0 : Int), s') τ dst t = (true, ((0 : Int), s'), t))) :=
  ⟨by decide,
   C10_take_negative_equals_upstream (allRun 2) 0 (List.range' 0 2) (-1)
     (by decide) (by simpa using allRun_models 2 2 0 (by omega) (by omega))⟩

/-! ### concat (transrangers.hpp lines 279-302).

The variadic C++ `concat` recurses into `concat` of the tail rangers with
base case the identity, so the binary case below is the building block:
`[=, cont = false, next = concat(rgrs...)](dst) { if (!cont) { if (!(cont =
rgr(dst))) return false; } return next(dst); }`.  The `cont` flag records
that the first sub-ranger has been exhausted, so resumed invocations go
straight to the second. -/

def concatRun {c σ₁ σ₂ : Type} (run1 : RangerRun c σ₁)
    (run2 : RangerRun c σ₂) : RangerRun c (Bool × σ₁ × σ₂) :=
  fun st τ dst t =>
    if st.1 then
      let o := run2 st.2.2 τ dst t
      (o.1, (true, st.2.1, o.2.1), o.2.2)
    else
      let o1 := run1 st.2.1 τ dst t
      if o1.1 then
        let o2 := run2 st.2.2 τ dst o1.2.2
        (o2.1, (true, o1.2.1, o2.2.1), o2.2.2)
      else (false, (false, o1.2.1, st.2.2), o1.2.2)

def concat {c σ₁ σ₂ : Type} (r1 : Ranger c σ₁) (r2 : Ranger c σ₂) :
    Ranger c (Bool × σ₁ × σ₂) :=
  ⟨concatRun r1.run r2.run, (false, r1.st, r2.st)⟩

theorem walk_append {c τ : Type} (dst : Sink c τ) :
    ∀ (L1 L2 : List c) (t : τ),
      walk dst (L1 ++ L2) t =
        (if (walk dst L1 t).1 then walk dst L2 (walk dst L1 t).2.2
         else (false, (walk dst L1 t).2.1 ++ L2, (walk dst L1 t).2.2)) := by
  intro L1
  induction L1 with
  | nil => intro L2 t; simp [walk]
  | cons p L1 ih =>
    intro L2 t
    cases hd : (dst p t).1
    · simp [walk, hd]
    · simp only [List.cons_append, walk, hd, if_true]
      exact ih L2 (dst p t).2

/-- After the first sub-ranger has been exhausted (`cont` flag set), the
concatenation behaves exactly as the second sub-ranger. -/
theorem concatRun_models_cont {c σ₁ σ₂ : Type} (run1 : RangerRun c σ₁)
    (run2 : RangerRun c σ₂) :
    ∀ (k : Nat) (L2 : List c) (s2 : σ₂) (s1 : σ₁), L2.length ≤ k →
      Models run2 s2 L2 →
      Models (concatRun run1 run2) ((true, s1, s2)) L2 := by
  intro k
  induction k with
  | zero =>
    intro L2 s2 s1 hk hm2
    have hL : L2 = [] := List.length_eq_zero.mp (Nat.le_zero.mp hk)
    subst hL
    rw [Models_def]
    intro τ dst t
    obtain ⟨e1, e2, _⟩ := (Models_def run2 s2 []).mp hm2 τ dst t
    exact ⟨e1, e2, by intro hw; simp [walk] at hw⟩
  | succ k ih =>
    intro L2 s2 s1 hk hm2
    rw [Models_def]
    intro τ dst t
    obtain ⟨e1, e2, e3⟩ := (Models_def run2 s2 L2).mp hm2 τ dst t
    refine ⟨e1, e2, ?_⟩
    intro hw
    have hres := e3 hw
    have hlen : (walk dst L2 t).2.1.length ≤ k := by
      have := walk_stop_lt dst L2 t hw
      omega
    exact ih (walk dst L2 t).2.1 (run2 s2 τ dst t).2.1 s1 hlen hres

/-- From a fresh state, the concatenation satisfies the contract for the
first cursor list followed by the second. -/
theorem concatRun_models {c σ₁ σ₂ : Type} (run1 : RangerRun c σ₁)
    (run2 : RangerRun c σ₂) :
    ∀ (k : Nat) (L1 : List c) (s1 : σ₁) (L2 : List c) (s2 : σ₂),
      L1.length ≤ k → Models run1 s1 L1 → Models run2 s2 L2 →
      Models (concatRun run1 run2) ((false, s1, s2)) (L1 ++ L2) := by
  intro k
  induction k with
  | zero =>
    intro L1 s1 L2 s2 hk hm1 hm2
    have hL : L1 = [] := List.length_eq_zero.mp (Nat.le_zero.mp hk)
    subst hL
    rw [Models_def]
    intro τ dst t
    obtain ⟨e1, e2, _⟩ := (Models_def run1 s1 []).mp hm1 τ dst t
    simp only [walk] at e1 e2
    obtain ⟨f1, f2, f3⟩ := (Models_def run2 s2 L2).mp hm2 τ dst
      (run1 s1 τ dst t).2.2
    rw [e2] at f1 f2 f3
    rw [List.nil_append]
    refine ⟨?_, ?_, ?_⟩
    · simp only [concatRun, Bool.false_eq_true, if_false, e1, if_true]
      rw [e2]
      exact f1
    · simp only [concatRun, Bool.false_eq_true, if_false, e1, if_true]
      rw [e2]
      exact f2
    · intro hw
      have hres := f3 hw
      simp only [concatRun, Bool.false_eq_true, if_false, e1, if_true]
      rw [e2]
      exact concatRun_models_cont run1 run2 (walk dst L2 t).2.1.length
        (walk dst L2 t).2.1 _ _ le_rfl hres
  | succ k ih =>
    intro L1 s1 L2 s2 hk hm1 hm2
    rw [Models_def]
    intro τ dst t
    obtain ⟨e1, e2, e3⟩ := (Models_def run1 s1 L1).mp hm1 τ dst t
    rw [walk_append]
    cases hw1 : (walk dst L1 t).1
    · -- stopped inside the first list
      have he1 : (run1 s1 τ dst t).1 = false := by rw [e1, hw1]
      refine ⟨?_, ?_, ?_⟩
      · simp [concatRun, he1]
      · simp only [concatRun, Bool.false_eq_true, if_false, he1]
        exact e2
      · intro _
        have hres := e3 hw1
        have hlen : (walk dst L1 t).2.1.length ≤ k := by
          have := walk_stop_lt dst L1 t hw1
          omega
        have hrec := ih (walk dst L1 t).2.1 (run1 s1 τ dst t).2.1 L2 s2
          hlen hres hm2
        simp only [concatRun, Bool.false_eq_true, if_false, he1]
        exact hrec
    · -- first list exhausted within this invocation: continue into the second
      have he1 : (run1 s1 τ dst t).1 = true := by rw [e1, hw1]
      obtain ⟨f1, f2, f3⟩ := (Models_def run2 s2 L2).mp hm2 τ dst
        (walk dst L1 t).2.2
      have he2 : run2 s2 τ dst (run1 s1 τ dst t).2.2
          = run2 s2 τ dst (walk dst L1 t).2.2 := by rw [e2]
      refine ⟨?_, ?_, ?_⟩
      · simp only [concatRun, Bool.false_eq_true, if_false, he1, if_true, he2]
        exact f1
      · simp only [concatRun, Bool.false_eq_true, if_false, he1, if_true, he2]
        exact f2
      · intro hw
        have hres := f3 (by simpa using hw)
        simp only [concatRun, Bool.false_eq_true, if_false, he1, if_true, he2]
        exact concatRun_models_cont run1 run2
          (walk dst L2 (walk dst L1 t).2.2).2.1.length
          (walk dst L2 (walk dst L1 t).2.2).2.1 _ _ le_rfl hres

/-- C5: `concat (all A) (all B)` delivers all of A's cursors in order, then
all of B's, each exactly once across the ranger's lifetime: (i) it
satisfies the contract for A's index block followed by B's (so a stop
mid-A resumes inside A without redelivery); (ii) a full drive logs exactly
those cursors once each, in order; (iii) mapping dereference recovers A
then B; (iv) once the first sub-ranger is exhausted (`cont` flag set), an
invocation evaluates only the second sub-ranger — its outcome does not
depend on the first one at all; (v) the flag is set by the invocation in
which the first sub-ranger reports exhaustion. -/
theorem C5_concat_A_then_B {α : Type} (A B : List α) (d : α) :
    Models (concat (all A) (all B)).run (concat (all A) (all B)).st
      (List.range' 0 A.length ++ List.range' 0 B.length) ∧
    (∀ (τ : Type) (dst : Sink Nat τ) (t : τ) (log : List Nat) (extra : Nat),
      ∃ s', driveN (concat (all A) (all B)).run (logSink dst)
          (A.length + B.length + 1 + extra) (concat (all A) (all B)).st
          (log, t)
        = (true, s',
           (log ++ (List.range' 0 A.length ++ List.range' 0 B.length),
            feedAll dst (List.range' 0 A.length ++ List.range' 0 B.length) t))) ∧
    ((List.range' 0 A.length).map (fun i => A.getD i d) = A ∧
     (List.range' 0 B.length).map (fun i => B.getD i d) = B) ∧
    (∀ (σ₁ σ₂ : Type) (run1 run1' : RangerRun Nat σ₁)
        (run2 : RangerRun Nat σ₂) (s1 : σ₁) (s2 : σ₂) (τ : Type)
        (dst : Sink Nat τ) (t : τ),
      concatRun run1 run2 ((true, s1, s2)) τ dst t
        = ((run2 s2 τ dst t).1, (true, s1, (run2 s2 τ dst t).2.1),
           (run2 s2 τ dst t).2.2) ∧
      concatRun run1 run2 ((true, s1, s2)) τ dst t
        = concatRun run1' run2 ((true, s1, s2)) τ dst t) ∧
    (∀ (σ₁ σ₂ : Type) (run1 : RangerRun Nat σ₁) (run2 : RangerRun Nat σ₂)
        (s1 : σ₁) (s2 : σ₂) (τ : Type) (dst : Sink Nat τ) (t : τ),
      (run1 s1 τ dst t).1 = true →
      (concatRun run1 run2 ((false, s1, s2)) τ dst t).2.1.1 = true) := by
  have hmA : Models (allRun A.length) 0 (List.range' 0 A.length) := by
    simpa using allRun_models A.length A.length 0 (by omega) (Nat.zero_le _)
  have hmB : Models (allRun B.length) 0 (List.range' 0 B.length) := by
    simpa using allRun_models B.length B.length 0 (by omega) (Nat.zero_le _)
  have hmC : Models (concat (all A) (all B)).run (concat (all A) (all B)).st
      (List.range' 0 A.length ++ List.range' 0 B.length) :=
    concatRun_models (allRun A.length) (allRun B.length) A.length
      (List.range' 0 A.length) 0 (List.range' 0 B.length) 0
      (le_of_eq (List.length_range' ..)) hmA hmB
  refine ⟨hmC, ?_, ⟨map_getD_range' d A A 0 rfl, map_getD_range' d B B 0 rfl⟩,
    ?_, ?_⟩
  · intro τ dst t log extra
    refine models_driveN (A.length + B.length) _ _ _ ?_ hmC τ dst t _ log ?_
    · rw [List.length_append, List.length_range', List.length_range']
    · rw [List.length_append, List.length_range', List.length_range']
      omega
  · intro σ₁ σ₂ run1 run1' run2 s1 s2 τ dst t
    exact ⟨rfl, rfl⟩
  · intro σ₁ σ₂ run1 run2 s1 s2 τ dst t h
    simp only [concatRun, Bool.false_eq_true, if_false, h, if_true]

/-- Closed witness for C5 at concrete sources, exercising the flag-setting
conjunct at its hypothesis. -/
theorem C5_witness :
    ((allRun 2 0 Unit (contSink Nat) ()).1 = true) ∧
    ((concatRun (allRun 2) (allRun 1)
        ((false, 0, 0)) Unit (contSink Nat) ()).2.1.1 = true) ∧
    (Models (concat (all [10, 20]) (all [30])).run
      (concat (all ([10, 20] : List Nat)) (all ([30] : List Nat))).st
      (List.range' 0 ([10, 20] : List Nat).length
        ++ List.range' 0 ([30] : List Nat).length)) :=
  ⟨by decide,
   (C5_concat_A_then_B ([10, 20] : List Nat) ([30] : List Nat) 0).2.2.2.2
     Nat Nat (allRun 2) (allRun 1) 0 0 Unit (contSink Nat) () (by decide),
   (C5_concat_A_then_B ([10, 20] : List Nat) ([30] : List Nat) 0).1⟩

/-! ### unique (transrangers.hpp lines 307-332).

State: `start` flag, retained cursor `p`, upstream ranger.  First
invocation pulls one element via a single-shot sink (`p = q; return
false`); if upstream is empty return true delivering nothing; otherwise
deliver `p`.  The main phase keeps an invocation-local `prev` (initialized
from `p`) and for each upstream cursor `q` does: `if ((*prev == *q) ||
dst(q)) { prev = q; return true; } else { p = q; return false; }`. -/

def uniqueSink {α c τ : Type} [DecidableEq α] (deref : c → α)
    (dst : Sink c τ) : Sink c (c × c × τ) := fun q st =>
  if deref st.1 = deref q then (true, (q, st.2.1, st.2.2))
  else
    let d := dst q st.2.2
    if d.1 then (true, (q, st.2.1, d.2)) else (false, (st.1, q, d.2))

def uniqueTail {α c σ : Type} [DecidableEq α] (deref : c → α)
    (run : RangerRun c σ) (τ : Type) (dst : Sink c τ) (p : c) (s : σ)
    (t : τ) : Bool × (Bool × c × σ) × τ :=
  let o := run s (c × c × τ) (uniqueSink deref dst) (p, p, t)
  (o.1, (false, o.2.2.2.1, o.2.1), o.2.2.2.2)

def uniqueRun {α c σ : Type} [DecidableEq α] (deref : c → α)
    (run : RangerRun c σ) : RangerRun c (Bool × c × σ) := fun st τ dst t =>
  if st.1 then
    let o1 := run st.2.2 c (fun q _ => (false, q)) st.2.1
    if o1.1 then (true, (false, o1.2.2, o1.2.1), t)
    else
      let d := dst o1.2.2 t
      if d.1 then uniqueTail deref run τ dst o1.2.2 o1.2.1 d.2
      else (false, (false, o1.2.2, o1.2.1), d.2)
  else uniqueTail deref run τ dst st.2.1 st.2.2 t

def unique {α c σ : Type} [DecidableEq α] [Inhabited c] (deref : c → α)
    (r : Ranger c σ) : Ranger c (Bool × c × σ) :=
  ⟨uniqueRun deref r.run, (true, default, r.st)⟩

/-- Cursors of `L` whose dereferenced value differs from that of the
cursor immediately before them (with `prev` the one before the first). -/
def collectNew {α c : Type} [DecidableEq α] (deref : c → α) :
    c → List c → List c
  | _, [] => []
  | prev, q :: L =>
    if deref prev = deref q then collectNew deref q L
    else q :: collectNew deref q L

/-- Value-level collapse of consecutive duplicates after a given head. -/
def collapse {α : Type} [DecidableEq α] : α → List α → List α
  | _, [] => []
  | prev, x :: xs => if prev = x then collapse x xs else x :: collapse x xs

/-- A list with consecutive duplicate elements collapsed: the first
element of each maximal run of consecutive equal elements. -/
def dedupConsec {α : Type} [DecidableEq α] : List α → List α
  | [] => []
  | x :: xs => x :: collapse x xs

/-- The full delivery of `unique` over an upstream cursor list: its head
followed by the cursors differing from their immediate predecessor. -/
def uniqueOut {α c : Type} [DecidableEq α] (deref : c → α) :
    List c → List c
  | [] => []
  | q :: L => q :: collectNew deref q L

theorem map_collectNew {α c : Type} [DecidableEq α] (deref : c → α) :
    ∀ (L : List c) (prev : c),
      (collectNew deref prev L).map deref = collapse (deref prev) (L.map deref) := by
  intro L
  induction L with
  | nil => intro prev; rfl
  | cons q L ih =>
    intro prev
    cases heq : decide (deref prev = deref q)
    · have hne : ¬(deref prev = deref q) := of_decide_eq_false heq
      simp only [collectNew, List.map_cons, collapse, hne, if_false,
        List.map_cons]
      rw [ih]
    · have he : deref prev = deref q := of_decide_eq_true heq
      simp only [collectNew, List.map_cons, collapse, he, if_true]
      rw [ih]

/-- With a sink that never stops, the main phase of `unique` exhausts the
remaining upstream cursors, delivering exactly those that differ from
their immediate predecessor (prev updates on every upstream element,
delivered or not). -/
theorem walk_uniqueSink_cont {α c τ : Type} [DecidableEq α] (deref : c → α)
    (dst : Sink c τ) (h : ∀ p t, (dst p t).1 = true) :
    ∀ (L : List c) (prev pv : c) (t : τ),
      walk (uniqueSink deref dst) L (prev, pv, t)
        = (true, [], (List.foldl (fun _ q => q) prev L, pv,
                      feedAll dst (collectNew deref prev L) t)) := by
  intro L
  induction L with
  | nil => intro prev pv t; rfl
  | cons q L ih =>
    intro prev pv t
    cases heq : decide (deref prev = deref q)
    · have hne : ¬(deref prev = deref q) := of_decide_eq_false heq
      have hstep : walk (uniqueSink deref dst) (q :: L) (prev, pv, t)
          = walk (uniqueSink deref dst) L (q, pv, (dst q t).2) := by
        simp [walk, uniqueSink, hne, h q t]
      rw [hstep, ih]
      simp only [List.foldl_cons, collectNew, hne, if_false, feedAll]
    · have he : deref prev = deref q := of_decide_eq_true heq
      have hstep : walk (uniqueSink deref dst) (q :: L) (prev, pv, t)
          = walk (uniqueSink deref dst) L (q, pv, t) := by
        simp [walk, uniqueSink, he]
      rw [hstep, ih]
      simp only [List.foldl_cons, collectNew, he, if_true]

/-- Driving `unique` over a conforming upstream with a sink that never
stops: one invocation reaches exhaustion and the sink is fed exactly the
head of the upstream cursor list followed by every cursor differing from
its immediate predecessor (on an empty upstream, nothing at all). -/
theorem uniqueRun_drive_cont {α c σ : Type} [DecidableEq α] (deref : c → α)
    (run : RangerRun c σ) (s : σ) (L : List c) (hm : Models run s L)
    (p0 : c) (τ : Type) (dst : Sink c τ) (h : ∀ p t, (dst p t).1 = true)
    (t : τ) :
    ∃ st', uniqueRun deref run ((true, p0, s)) τ dst t
        = (true, st', feedAll dst (uniqueOut deref L) t) := by
  obtain ⟨e1, e2, e3⟩ := (Models_def run s L).mp hm c (fun q _ => (false, q)) p0
  cases L with
  | nil =>
    simp only [walk] at e1 e2
    refine ⟨(false, (run s c (fun q _ => (false, q)) p0).2.2,
      (run s c (fun q _ => (false, q)) p0).2.1), ?_⟩
    simp only [uniqueRun, if_true, e1, uniqueOut, feedAll]
  | cons q L' =>
    have hwq : walk (fun (q : c) (_ : c) => (false, q)) (q :: L') p0
        = (false, L', q) := by
      simp [walk]
    rw [hwq] at e1 e2 e3
    dsimp only at e1 e2 e3
    have hres := e3 rfl
    obtain ⟨f1, f2, _⟩ := (Models_def run _ L').mp hres (c × c × τ)
      (uniqueSink deref dst) (q, q, (dst q t).2)
    rw [walk_uniqueSink_cont deref dst h] at f1 f2
    dsimp only at f1 f2
    simp only [uniqueRun, if_true, e1, Bool.false_eq_true, if_false,
      e2, h q t, uniqueTail]
    rw [f1, f2]
    exact ⟨_, rfl⟩

/-- Mapping dereference over `unique`'s delivered cursors yields the
source with consecutive duplicates collapsed. -/
theorem uniqueOut_map_getD {α : Type} [DecidableEq α] (S : List α) (d : α) :
    (uniqueOut (fun i => S.getD i d) (List.range' 0 S.length)).map
        (fun i => S.getD i d) = dedupConsec S := by
  cases S with
  | nil => rfl
  | cons x rest =>
    rw [List.length_cons, List.range'_succ 0 rest.length 1]
    simp only [uniqueOut, List.map_cons]
    rw [map_collectNew]
    have h0 : (x :: rest).getD 0 d = x := rfl
    have h1 : (List.range' 1 rest.length).map
        (fun i => (x :: rest).getD i d) = rest :=
      map_getD_range' d rest (x :: rest) 1 rfl
    rw [h0, h1]
    rfl

/-- C3: driving `unique (all S)` to completion (sink never stops) delivers
exactly the first element of each maximal run of consecutive equal
elements of S, in order: the single exhausting invocation returns true and
logs `uniqueOut`, whose dereference is `S` with consecutive duplicates
collapsed; accumulating over `unique (all T)` equals folding over the
collapsed `T`; and on an empty source the first invocation returns true
with nothing delivered. -/
theorem C3_unique_collapses_consecutive_duplicates {α : Type}
    [DecidableEq α] (S : List α) (d : α) (T : List Nat) (init : Nat) :
    (∃ st', (unique (fun i => S.getD i d) (all S)).run
        (unique (fun i => S.getD i d) (all S)).st (List Nat × Unit)
        (logSink (contSink Nat)) ([], ())
      = (true, st',
         (uniqueOut (fun i => S.getD i d) (List.range' 0 S.length), ()))) ∧
    (uniqueOut (fun i => S.getD i d) (List.range' 0 S.length)).map
        (fun i => S.getD i d) = dedupConsec S ∧
    accumulate (fun i => T.getD i 0) (unique (fun i => T.getD i 0) (all T))
        init
      = List.foldl (fun a x => a + x) init (dedupConsec T) ∧
    (S = [] → ∃ st', (unique (fun i => S.getD i d) (all S)).run
        (unique (fun i => S.getD i d) (all S)).st (List Nat × Unit)
        (logSink (contSink Nat)) ([], ())
      = (true, st', ([], ()))) := by
  have hmS : Models (allRun S.length) 0 (List.range' 0 S.length) := by
    simpa using allRun_models S.length S.length 0 (by omega) (Nat.zero_le _)
  have hmT : Models (allRun T.length) 0 (List.range' 0 T.length) := by
    simpa using allRun_models T.length T.length 0 (by omega) (Nat.zero_le _)
  have hlog : ∀ (p : Nat) (lt : List Nat × Unit),
      ((logSink (contSink Nat)) p lt).1 = true := fun _ _ => rfl
  have hmain : ∃ st', (unique (fun i => S.getD i d) (all S)).run
      (unique (fun i => S.getD i d) (all S)).st (List Nat × Unit)
      (logSink (contSink Nat)) ([], ())
    = (true, st',
       (uniqueOut (fun i => S.getD i d) (List.range' 0 S.length), ())) := by
    obtain ⟨st', hdrive⟩ := uniqueRun_drive_cont (fun i => S.getD i d)
      (allRun S.length) 0 (List.range' 0 S.length) hmS 0 (List Nat × Unit)
      (logSink (contSink Nat)) hlog ([], ())
    refine ⟨st', ?_⟩
    rw [show (unique (fun i => S.getD i d) (all S)).run
          (unique (fun i => S.getD i d) (all S)).st (List Nat × Unit)
          (logSink (contSink Nat)) ([], ())
        = uniqueRun (fun i => S.getD i d) (allRun S.length)
          ((true, 0, 0)) (List Nat × Unit) (logSink (contSink Nat)) ([], ())
      from rfl, hdrive, feedAll_log]
    rfl
  refine ⟨hmain, uniqueOut_map_getD S d, ?_, ?_⟩
  · obtain ⟨st', hdrive⟩ := uniqueRun_drive_cont (fun i => T.getD i 0)
      (allRun T.length) 0 (List.range' 0 T.length) hmT 0 Nat
      (fun p a => (true, a + T.getD p 0)) (fun _ _ => rfl) init
    have hacc : accumulate (fun i => T.getD i 0)
        (unique (fun i => T.getD i 0) (all T)) init
        = (uniqueRun (fun i => T.getD i 0) (allRun T.length) ((true, 0, 0))
            Nat (fun p a => (true, a + T.getD p 0)) init).2.2 := rfl
    rw [hacc, hdrive]
    show feedAll (fun p a => (true, a + T.getD p 0))
        (uniqueOut (fun i => T.getD i 0) (List.range' 0 T.length)) init = _
    rw [feedAll_fold, ← List.foldl_map (fun i => T.getD i 0)
      (fun a x => a + x), uniqueOut_map_getD T 0]
  · intro hS
    subst hS
    simpa using hmain

/-- Closed witness for C3, exercising the empty-source conjunct at its
hypothesis. -/
theorem C3_witness :
    ∃ st', (unique (fun i => ([] : List Nat).getD i 0)
        (all ([] : List Nat))).run
      (unique (fun i => ([] : List Nat).getD i 0) (all ([] : List Nat))).st
      (List Nat × Unit) (logSink (contSink Nat)) ([], ())
      = (true, st', ([], ())) :=
  (C3_unique_collapses_consecutive_duplicates ([] : List Nat) 0 [1, 1, 2] 0).2.2.2
    rfl

/-! ### zip2 (transrangers.hpp lines 461-480) and the variadic zip
(transrangers_ext.hpp lines 210-313, the binary instance of which has the
same evaluation structure).

State: a persistent composite cursor `zp` plus both sub-rangers.  Each
invocation sets `finished = false` and walks the first ranger with a sink
that stores the cursor into `zp`'s first slot, pulls exactly one cursor
from the second ranger via a single-shot sink into `zp`'s second slot
(`return false` forces one delivery), sets `finished` and stops if that
pull reports exhaustion, and otherwise forwards the composite; the result
is `rgr1(...) || finished`. -/

def zipSink {c₁ c₂ σ₂ τ : Type} (run2 : RangerRun c₂ σ₂)
    (dst : Sink (c₁ × c₂) τ) : Sink c₁ (Bool × (c₁ × c₂) × σ₂ × τ) :=
  fun p st =>
    let zp1 := (p, st.2.1.2)
    let o2 := run2 st.2.2.1 (c₁ × c₂) (fun q z => (false, (z.1, q))) zp1
    if o2.1 then (false, (true, o2.2.2, o2.2.1, st.2.2.2))
    else
      let d := dst o2.2.2 st.2.2.2
      (d.1, (st.1, o2.2.2, o2.2.1, d.2))

def zip2Run {c₁ c₂ σ₁ σ₂ : Type} (run1 : RangerRun c₁ σ₁)
    (run2 : RangerRun c₂ σ₂) :
    RangerRun (c₁ × c₂) ((c₁ × c₂) × σ₁ × σ₂) := fun st τ dst t =>
  let o1 := run1 st.2.1 (Bool × (c₁ × c₂) × σ₂ × τ) (zipSink run2 dst)
    (false, st.1, st.2.2, t)
  (o1.1 || o1.2.2.1, (o1.2.2.2.1, o1.2.1, o1.2.2.2.2.1), o1.2.2.2.2.2)

def zip2 {c₁ c₂ σ₁ σ₂ : Type} [Inhabited c₁] [Inhabited c₂]
    (r1 : Ranger c₁ σ₁) (r2 : Ranger c₂ σ₂) :
    Ranger (c₁ × c₂) ((c₁ × c₂) × σ₁ × σ₂) :=
  ⟨zip2Run r1.run r2.run, ((default, default), r1.st, r2.st)⟩

/-- Walking the first input's cursors through the zip sink (with a
downstream sink that never stops): one cursor is pulled from the second
ranger per delivered first-input cursor; the fed composites are exactly
the positional pairs, and the walk is stopped (with the finished flag set)
exactly when the second input runs out first. -/
theorem walk_zipSink_cont {c₁ c₂ σ₂ τ : Type} (run2 : RangerRun c₂ σ₂)
    (dst : Sink (c₁ × c₂) τ) (h : ∀ p t, (dst p t).1 = true) :
    ∀ (L1 : List c₁) (s2 : σ₂) (L2 : List c₂), Models run2 s2 L2 →
      ∀ (zp : c₁ × c₂) (t : τ),
      ∃ zp' s2',
        walk (zipSink run2 dst) L1 (false, zp, s2, t)
          = ((decide (L1.length ≤ L2.length) : Bool),
             L1.drop (L2.length + 1),
             ((decide (L2.length < L1.length) : Bool), zp', s2',
              feedAll dst (L1.zip L2) t)) ∧
        (L1.length ≤ L2.length → Models run2 s2' (L2.drop L1.length)) := by
  intro L1
  induction L1 with
  | nil =>
    intro s2 L2 hm2 zp t
    refine ⟨zp, s2, ?_, ?_⟩
    · simp [walk, List.zip_nil_left, feedAll]
    · intro _
      simpa using hm2
  | cons p L1 ih =>
    intro s2 L2 hm2 zp t
    obtain ⟨e1, e2, e3⟩ := (Models_def run2 s2 L2).mp hm2 (c₁ × c₂)
      (fun q z => (false, (z.1, q))) (p, zp.2)
    cases L2 with
    | nil =>
      simp only [walk] at e1 e2
      refine ⟨(run2 s2 (c₁ × c₂) (fun q z => (false, (z.1, q))) (p, zp.2)).2.2,
        (run2 s2 (c₁ × c₂) (fun q z => (false, (z.1, q))) (p, zp.2)).2.1,
        ?_, ?_⟩
      · have hstep : walk (zipSink run2 dst) (p :: L1) (false, zp, s2, t)
            = (false, L1,
               (true,
                (run2 s2 (c₁ × c₂) (fun q z => (false, (z.1, q))) (p, zp.2)).2.2,
                (run2 s2 (c₁ × c₂) (fun q z => (false, (z.1, q))) (p, zp.2)).2.1,
                t)) := by
          simp [walk, zipSink, e1]
        rw [hstep]
        simp [List.zip_nil_right, feedAll]
      · intro habs
        simp at habs
    | cons q2 L2' =>
      have hwq : walk (fun (q : c₂) (z : c₁ × c₂) => (false, (z.1, q)))
          (q2 :: L2') (p, zp.2) = (false, L2', (p, q2)) := by
        simp [walk]
      rw [hwq] at e1 e2 e3
      dsimp only at e1 e2 e3
      have hres := e3 rfl
      obtain ⟨zp', s2', hwalk, hmod⟩ := ih
        (run2 s2 (c₁ × c₂) (fun q z => (false, (z.1, q))) (p, zp.2)).2.1
        L2' hres (p, q2) (dst (p, q2) t).2
      have hstep : walk (zipSink run2 dst) (p :: L1) (false, zp, s2, t)
          = walk (zipSink run2 dst) L1
            (false, (p, q2),
             (run2 s2 (c₁ × c₂) (fun q z => (false, (z.1, q))) (p, zp.2)).2.1,
             (dst (p, q2) t).2) := by
        simp [walk, zipSink, e1, e2, h (p, q2) t]
      refine ⟨zp', s2', ?_, ?_⟩
      · rw [hstep, hwalk]
        have hd1 : (decide (L1.length ≤ L2'.length) : Bool)
            = decide ((p :: L1).length ≤ (q2 :: L2').length) := by
          rw [decide_eq_decide]
          simp
        have hd2 : (decide (L2'.length < L1.length) : Bool)
            = decide ((q2 :: L2').length < (p :: L1).length) := by
          rw [decide_eq_decide]
          simp
        rw [hd1, hd2]
        rfl
      · intro hle
        have hle' : L1.length ≤ L2'.length := by
          simpa using hle
        have := hmod hle'
        simpa using this

/-- A full drive of `zip2` over conforming inputs with a sink that never
stops: the invocation returns true and the sink is fed exactly the
positional pairs of the two cursor lists (min-length many). -/
theorem zip2Run_drive_cont {c₁ c₂ σ₁ σ₂ τ : Type} (run1 : RangerRun c₁ σ₁)
    (run2 : RangerRun c₂ σ₂) (s1 : σ₁) (L1 : List c₁) (hm1 : Models run1 s1 L1)
    (s2 : σ₂) (L2 : List c₂) (hm2 : Models run2 s2 L2) (zp : c₁ × c₂)
    (dst : Sink (c₁ × c₂) τ) (h : ∀ p t, (dst p t).1 = true) (t : τ) :
    ∃ st', zip2Run run1 run2 ((zp, s1, s2)) τ dst t
        = (true, st', feedAll dst (L1.zip L2) t) := by
  obtain ⟨e1, e2, _⟩ := (Models_def run1 s1 L1).mp hm1
    (Bool × (c₁ × c₂) × σ₂ × τ) (zipSink run2 dst) (false, zp, s2, t)
  obtain ⟨zp', s2', hwalk, _⟩ := walk_zipSink_cont run2 dst h L1 s2 L2 hm2 zp t
  rw [hwalk] at e1 e2
  have hb : (decide (L1.length ≤ L2.length) || decide (L2.length < L1.length))
      = true := by
    rcases le_or_lt L1.length L2.length with hc | hc
    · simp [hc]
    · simp [hc]
  refine ⟨(zp', (run1 s1 (Bool × (c₁ × c₂) × σ₂ × τ) (zipSink run2 dst)
    (false, zp, s2, t)).2.1, s2'), ?_⟩
  simp only [zip2Run]
  rw [e1, e2]
  dsimp only
  rw [hb]

/-- From any state in which the second ranger is exhausted, an invocation
of `zip2` returns true and delivers nothing (the sink is never called). -/
theorem zip2Run_after_exhaust {c₁ c₂ σ₁ σ₂ τ : Type}
    (run1 : RangerRun c₁ σ₁) (run2 : RangerRun c₂ σ₂) (s1 : σ₁)
    (L1 : List c₁) (hm1 : Models run1 s1 L1) (s2 : σ₂)
    (hm2 : Models run2 s2 []) (zp : c₁ × c₂) (dst : Sink (c₁ × c₂) τ)
    (t : τ) :
    ∃ st', zip2Run run1 run2 ((zp, s1, s2)) τ dst t = (true, st', t) := by
  obtain ⟨e1, e2, _⟩ := (Models_def run1 s1 L1).mp hm1
    (Bool × (c₁ × c₂) × σ₂ × τ) (zipSink run2 dst) (false, zp, s2, t)
  cases L1 with
  | nil =>
    simp only [walk] at e1 e2
    refine ⟨(zp, (run1 s1 (Bool × (c₁ × c₂) × σ₂ × τ) (zipSink run2 dst)
      (false, zp, s2, t)).2.1, s2), ?_⟩
    simp only [zip2Run]
    rw [e1, e2]
    rfl
  | cons p L1' =>
    obtain ⟨f1, f2, _⟩ := (Models_def run2 s2 []).mp hm2 (c₁ × c₂)
      (fun q z => (false, (z.1, q))) (p, zp.2)
    simp only [walk] at f1 f2
    have hstep : walk (zipSink run2 dst) (p :: L1') (false, zp, s2, t)
        = (false, L1',
           (true, (run2 s2 (c₁ × c₂) (fun q z => (false, (z.1, q))) (p, zp.2)).2.2,
            (run2 s2 (c₁ × c₂) (fun q z => (false, (z.1, q))) (p, zp.2)).2.1,
            t)) := by
      simp [walk, zipSink, f1]
    rw [hstep] at e1 e2
    refine ⟨((run2 s2 (c₁ × c₂) (fun q z => (false, (z.1, q))) (p, zp.2)).2.2,
      (run1 s1 (Bool × (c₁ × c₂) × σ₂ × τ) (zipSink run2 dst)
        (false, zp, s2, t)).2.1,
      (run2 s2 (c₁ × c₂) (fun q z => (false, (z.1, q))) (p, zp.2)).2.1), ?_⟩
    simp only [zip2Run]
    rw [e1, e2]
    rfl

/-- C4 (amended): a single complete drive of `zip2 (all A) (all B)` with a
sink that never stops delivers exactly `min |A| |B|` composite cursors, the
i-th dereferencing to `(A[i], B[i])`, in increasing order of `i`; and once
the SECOND input is exhausted, every subsequent invocation returns true
and delivers nothing.  (The original claim's stronger assertion — that
after either input is exhausted no further composite is ever delivered —
fails when `|A| < |B|`: see the counterexample.) -/
theorem C4_zip2_pairs_min_length {α : Type} (A B : List α) (d : α) :
    (∃ st', (zip2 (all A) (all B)).run (zip2 (all A) (all B)).st
        (List (Nat × Nat) × Unit) (logSink (contSink (Nat × Nat))) ([], ())
      = (true, st',
         ((List.range' 0 A.length).zip (List.range' 0 B.length), ()))) ∧
    (((List.range' 0 A.length).zip (List.range' 0 B.length)).map
        (fun pq => (A.getD pq.1 d, B.getD pq.2 d)) = A.zip B) ∧
    ((A.zip B).length = min A.length B.length) ∧
    (∀ (zp : Nat × Nat) (s1 : Nat), s1 ≤ A.length →
      ∀ (τ : Type) (dst : Sink (Nat × Nat) τ) (t : τ),
      ∃ st', zip2Run (allRun A.length) (allRun B.length)
          ((zp, s1, B.length)) τ dst t = (true, st', t)) := by
  have hmA : Models (allRun A.length) 0 (List.range' 0 A.length) := by
    simpa using allRun_models A.length A.length 0 (by omega) (Nat.zero_le _)
  have hmB : Models (allRun B.length) 0 (List.range' 0 B.length) := by
    simpa using allRun_models B.length B.length 0 (by omega) (Nat.zero_le _)
  have hlog : ∀ (p : Nat × Nat) (lt : List (Nat × Nat) × Unit),
      ((logSink (contSink (Nat × Nat))) p lt).1 = true := fun _ _ => rfl
  refine ⟨?_, ?_, List.length_zip A B, ?_⟩
  · obtain ⟨st', hdrive⟩ := zip2Run_drive_cont (allRun A.length)
      (allRun B.length) 0 (List.range' 0 A.length) hmA 0
      (List.range' 0 B.length) hmB ((0, 0)) (logSink (contSink (Nat × Nat)))
      hlog ([], ())
    refine ⟨st', ?_⟩
    rw [show (zip2 (all A) (all B)).run (zip2 (all A) (all B)).st
          (List (Nat × Nat) × Unit) (logSink (contSink (Nat × Nat))) ([], ())
        = zip2Run (allRun A.length) (allRun B.length) (((0, 0), 0, 0))
          (List (Nat × Nat) × Unit) (logSink (contSink (Nat × Nat))) ([], ())
      from rfl, hdrive, feedAll_log]
    rfl
  · show ((List.range' 0 A.length).zip (List.range' 0 B.length)).map
        (Prod.map (fun i => A.getD i d) (fun i => B.getD i d)) = A.zip B
    rw [← List.zip_map, map_getD_range' d A A 0 rfl, map_getD_range' d B B 0 rfl]
  · intro zp s1 hs1 τ dst t
    have hm1 : Models (allRun A.length) s1 (List.range' s1 (A.length - s1)) :=
      allRun_models A.length A.length s1 (by omega) hs1
    have hm2 : Models (allRun B.length) B.length [] := by
      simpa using allRun_models B.length B.length B.length (by omega) le_rfl
    exact zip2Run_after_exhaust (allRun A.length) (allRun B.length) s1
      (List.range' s1 (A.length - s1)) hm1 B.length hm2 zp dst t

/-- Counterexample to C4 as stated: with A = [10] and B = [20, 30], the
first invocation exhausts input A and delivers the single composite
(min-many, as expected), but the NEXT invocation — after input A is
already exhausted — delivers a further composite whose dereference is
(10, 30): across its lifetime the zipped ranger delivers two composites,
not min(1, 2) = 1, and a post-exhaustion invocation does not report bare
exhaustion with nothing delivered. -/
theorem C4_counterexample :
    ((zip2 (all ([10] : List Nat)) (all ([20, 30] : List Nat))).run
        (zip2 (all ([10] : List Nat)) (all ([20, 30] : List Nat))).st
        (List (Nat × Nat) × Unit) (logSink (contSink (Nat × Nat)))
        ([], ())).1 = true ∧
    ((zip2 (all ([10] : List Nat)) (all ([20, 30] : List Nat))).run
        (zip2 (all ([10] : List Nat)) (all ([20, 30] : List Nat))).st
        (List (Nat × Nat) × Unit) (logSink (contSink (Nat × Nat)))
        ([], ())).2.2.1 = [(0, 0)] ∧
    ((zip2 (all ([10] : List Nat)) (all ([20, 30] : List Nat))).run
        ((zip2 (all ([10] : List Nat)) (all ([20, 30] : List Nat))).run
          (zip2 (all ([10] : List Nat)) (all ([20, 30] : List Nat))).st
          (List (Nat × Nat) × Unit) (logSink (contSink (Nat × Nat)))
          ([], ())).2.1
        (List (Nat × Nat) × Unit) (logSink (contSink (Nat × Nat)))
        ([], ())).2.2.1 = [(0, 1)] ∧
    (([10] : List Nat).getD 0 0, ([20, 30] : List Nat).getD 1 0) = (10, 30) ∧
    1 + 1 ≠ min ([10] : List Nat).length ([20, 30] : List Nat).length := by
  decide

/-- Closed witness for C4's amended statement, exercising the
post-exhaustion conjunct at its hypothesis. -/
theorem C4_witness :
    ∃ st', zip2Run (allRun ([7, 8] : List Nat).length)
        (allRun ([9] : List Nat).length)
        (((0, 0), 2, ([9] : List Nat).length)) Unit (contSink (Nat × Nat)) ()
      = (true, st', ()) :=
  (C4_zip2_pairs_min_length ([7, 8] : List Nat) ([9] : List Nat) 0).2.2.2
    (0, 0) 2 (by decide) Unit (contSink (Nat × Nat)) ()

/-! ### enumerate (transrangers_ext.hpp lines 168-176), built on transform
and deref_fun (transrangers.hpp lines 193-243).

`enumerate(rgr)` is `transform(f, rgr)` where `f` is a mutable lambda
capturing `index = 0` and returning `(old, value)` while incrementing
`index`.  The counter lives in the combinator's captured state and is
never reset.  `transform`'s cursor defers `f(*p)` to dereference time; as
every claim here drives pipelines whose sinks dereference each delivered
cursor exactly once, the embedding performs that single dereference at
delivery, pairing the cursor's value with the current counter. -/

def enumSink {α c τ : Type} (deref : c → α) (dst : Sink (Nat × α) τ) :
    Sink c (Nat × τ) := fun p it =>
  let d := dst (it.1, deref p) it.2
  (d.1, (it.1 + 1, d.2))

def enumerateRun {α c σ : Type} (deref : c → α) (run : RangerRun c σ) :
    RangerRun (Nat × α) (Nat × σ) := fun st τ dst t =>
  let o := run st.2 (Nat × τ) (enumSink deref dst) (st.1, t)
  (o.1, (o.2.2.1, o.2.1), o.2.2.2)

def enumerate {α c σ : Type} (deref : c → α) (r : Ranger c σ) :
    Ranger (Nat × α) (Nat × σ) :=
  ⟨enumerateRun deref r.run, (0, r.st)⟩

/-- The pairs delivered by `enumerate` over a cursor list, counting from
`i`. -/
def enumList {α c : Type} (deref : c → α) : Nat → List c → List (Nat × α)
  | _, [] => []
  | i, p :: C => (i, deref p) :: enumList deref (i + 1) C

theorem enumList_length {α c : Type} (deref : c → α) :
    ∀ (C : List c) (i : Nat), (enumList deref i C).length = C.length := by
  intro C
  induction C with
  | nil => intro i; rfl
  | cons p C ih =>
    intro i
    simp [enumList, ih]

theorem enumList_map_fst {α c : Type} (deref : c → α) :
    ∀ (C : List c) (i : Nat),
      (enumList deref i C).map Prod.fst = List.range' i C.length := by
  intro C
  induction C with
  | nil => intro i; rfl
  | cons p C ih =>
    intro i
    rw [List.length_cons, List.range'_succ i C.length 1]
    simp only [enumList, List.map_cons, ih]

theorem enumList_map_snd {α c : Type} (deref : c → α) :
    ∀ (C : List c) (i : Nat),
      (enumList deref i C).map Prod.snd = C.map deref := by
  intro C
  induction C with
  | nil => intro i; rfl
  | cons p C ih =>
    intro i
    simp only [enumList, List.map_cons, ih]

/-- Walking cursors through the counting sink is walking the numbered
pairs through the raw sink: the counter advances by exactly the number of
delivered cursors. -/
theorem walk_enumSink {α c τ : Type} (deref : c → α) (dst : Sink (Nat × α) τ) :
    ∀ (C : List c) (i : Nat) (t : τ),
      ∃ m, m ≤ C.length ∧
        walk (enumSink deref dst) C (i, t)
          = ((walk dst (enumList deref i C) t).1, C.drop m,
             (i + m, (walk dst (enumList deref i C) t).2.2)) ∧
        (walk dst (enumList deref i C) t).2.1
          = enumList deref (i + m) (C.drop m) ∧
        ((walk dst (enumList deref i C) t).1 = true → m = C.length) ∧
        ((walk dst (enumList deref i C) t).1 = false → 1 ≤ m) := by
  intro C
  induction C with
  | nil =>
    intro i t
    exact ⟨0, by simp [walk, enumList]⟩
  | cons p C ih =>
    intro i t
    cases hd : (dst (i, deref p) t).1
    · refine ⟨1, by simp, ?_, ?_, ?_, ?_⟩
      · simp [walk, enumSink, enumList, hd]
      · simp [walk, enumList, hd]
      · intro habs
        simp [walk, enumList, hd] at habs
      · intro _; exact le_rfl
    · obtain ⟨m, hm, h1, h2, h3, h4⟩ := ih (i + 1) (dst (i, deref p) t).2
      refine ⟨m + 1, by simpa using Nat.succ_le_succ hm, ?_, ?_, ?_, ?_⟩
      · have hstep : walk (enumSink deref dst) (p :: C) (i, t)
            = walk (enumSink deref dst) C (i + 1, (dst (i, deref p) t).2) := by
          simp [walk, enumSink, hd]
        have hstep' : walk dst (enumList deref i (p :: C)) t
            = walk dst (enumList deref (i + 1) C) (dst (i, deref p) t).2 := by
          simp [walk, enumList, hd]
        rw [hstep, hstep', h1, List.drop_succ_cons]
        have : i + (m + 1) = i + 1 + m := by omega
        rw [this]
      · have hstep' : walk dst (enumList deref i (p :: C)) t
            = walk dst (enumList deref (i + 1) C) (dst (i, deref p) t).2 := by
          simp [walk, enumList, hd]
        rw [hstep', h2, List.drop_succ_cons]
        have : i + (m + 1) = i + 1 + m := by omega
        rw [this]
      · intro hw
        have hstep' : walk dst (enumList deref i (p :: C)) t
            = walk dst (enumList deref (i + 1) C) (dst (i, deref p) t).2 := by
          simp [walk, enumList, hd]
        rw [hstep'] at hw
        rw [h3 hw, List.length_cons]
      · intro _; exact Nat.succ_le_succ (Nat.zero_le _)

/-- The enumerate combinator preserves the ranger contract, pairing the
modeled cursors with consecutive counter values starting at the captured
counter. -/
theorem enumerateRun_models {α c σ : Type} (deref : c → α)
    (run : RangerRun c σ) :
    ∀ (k : Nat) (C : List c) (s : σ) (i : Nat), C.length ≤ k →
      Models run s C →
      Models (enumerateRun deref run) ((i, s)) (enumList deref i C) := by
  intro k
  induction k with
  | zero =>
    intro C s i hk hm
    have hC : C = [] := List.length_eq_zero.mp (Nat.le_zero.mp hk)
    subst hC
    rw [Models_def]
    intro τ dst t
    obtain ⟨e1, e2, _⟩ := (Models_def run s []).mp hm (Nat × τ)
      (enumSink deref dst) (i, t)
    simp only [walk] at e1 e2
    refine ⟨e1, ?_, ?_⟩
    · simp only [enumerateRun, enumList, walk]
      rw [e2]
    · intro habs
      simp [enumList, walk] at habs
  | succ k ih =>
    intro C s i hk hm
    rw [Models_def]
    intro τ dst t
    obtain ⟨e1, e2, e3⟩ := (Models_def run s C).mp hm (Nat × τ)
      (enumSink deref dst) (i, t)
    obtain ⟨m, hm', h1, h2, h3, h4⟩ := walk_enumSink deref dst C i t
    rw [h1] at e1 e2 e3
    dsimp only at e1 e2 e3
    refine ⟨e1, ?_, ?_⟩
    · simp only [enumerateRun]
      rw [e2]
    · intro hw
      have hres := e3 (by simpa using hw)
      have hm1 : 1 ≤ m := h4 hw
      have hlen : (C.drop m).length ≤ k := by
        rw [List.length_drop]; omega
      have hrec := ih (C.drop m) (run s (Nat × τ) (enumSink deref dst)
        (i, t)).2.1 (i + m) hlen hres
      rw [h2]
      simp only [enumerateRun]
      rw [e2]
      exact hrec

/-- C9: `enumerate` pairs each delivered element with a zero-based
sequence number: from counter `i` it satisfies the contract for the
numbered pair list `enumList i C`; after any single invocation the counter
equals `i` plus the number of pairs delivered in it (monotone, never
reset, persisting across suspend/resume); a full drive delivers the
numbered pairs exactly once in order, the numbers being `i, i+1, …` and
the values the dereferenced elements; and the combinator's initial
captured counter is 0. -/
theorem C9_enumerate_pairs_with_index {α c σ : Type} (deref : c → α)
    (run : RangerRun c σ) (s : σ) (C : List c) (hm : Models run s C)
    (i : Nat) :
    Models (enumerateRun deref run) ((i, s)) (enumList deref i C) ∧
    (∀ (τ : Type) (dst : Sink (Nat × α) τ) (t : τ) (log : List (Nat × α)),
      ∃ m, m ≤ C.length ∧
        (enumerateRun deref run ((i, s)) (List (Nat × α) × τ) (logSink dst)
            (log, t)).2.1.1 = i + m ∧
        (enumerateRun deref run ((i, s)) (List (Nat × α) × τ) (logSink dst)
            (log, t)).2.2.1 = log ++ (enumList deref i C).take m) ∧
    (∀ (τ : Type) (dst : Sink (Nat × α) τ) (t : τ) (log : List (Nat × α))
        (extra : Nat),
      ∃ st', driveN (enumerateRun deref run) (logSink dst)
          (C.length + 1 + extra) ((i, s)) (log, t)
        = (true, st', (log ++ enumList deref i C,
                       feedAll dst (enumList deref i C) t))) ∧
    ((enumList deref 0 C).map Prod.fst = List.range' 0 C.length) ∧
    ((enumList deref 0 C).map Prod.snd = C.map deref) ∧
    ((enumerate deref ⟨run, s⟩).st = ((0 : Nat), s)) := by
  have hmodels : Models (enumerateRun deref run) ((i, s))
      (enumList deref i C) :=
    enumerateRun_models deref run C.length C s i le_rfl hm
  refine ⟨hmodels, ?_, ?_, enumList_map_fst deref C 0,
    enumList_map_snd deref C 0, rfl⟩
  · intro τ dst t log
    obtain ⟨m, hmle, h1, h2, _, _⟩ :=
      walk_enumSink deref (logSink dst) C i (log, t)
    obtain ⟨e1, e2, _⟩ := (Models_def run s C).mp hm
      (Nat × (List (Nat × α) × τ)) (enumSink deref (logSink dst))
      (i, (log, t))
    rw [h1] at e2
    dsimp only at e2
    have hW := walk_log dst (enumList deref i C) log t
    have hproj := congrArg (fun x => x.2.1) hW
    dsimp only at hproj
    rw [hproj] at h2
    have hlen2 : (enumList deref i C).length
        - (walk dst (enumList deref i C) t).2.1.length = m := by
      rw [h2, enumList_length, enumList_length, List.length_drop]
      omega
    refine ⟨m, hmle, ?_, ?_⟩
    · show (run s (Nat × (List (Nat × α) × τ)) (enumSink deref (logSink dst))
        (i, (log, t))).2.2.1 = i + m
      rw [e2]
    · show (run s (Nat × (List (Nat × α) × τ)) (enumSink deref (logSink dst))
        (i, (log, t))).2.2.2.1 = log ++ (enumList deref i C).take m
      rw [e2]
      show (walk (logSink dst) (enumList deref i C) (log, t)).2.2.1
        = log ++ (enumList deref i C).take m
      rw [hW]
      show log ++ (enumList deref i C).take ((enumList deref i C).length
        - (walk dst (enumList deref i C) t).2.1.length)
        = log ++ (enumList deref i C).take m
      rw [hlen2]
  · intro τ dst t log extra
    refine models_driveN (enumList deref i C).length _ _ _ le_rfl hmodels
      τ dst t _ log ?_
    rw [enumList_length]
    omega

/-- Closed witness for C9 over the source adaptation of a 2-element list.
-/
theorem C9_witness :
    (Models (enumerateRun (fun j => ([4, 5] : List Nat).getD j 0) (allRun 2))
        ((0, 0))
        (enumList (fun j => ([4, 5] : List Nat).getD j 0) 0
          (List.range' 0 2)) ∧
    (∀ (τ : Type) (dst : Sink (Nat × Nat) τ) (t : τ)
        (log : List (Nat × Nat)),
      ∃ m, m ≤ (List.range' 0 2).length ∧
        (enumerateRun (fun j => ([4, 5] : List Nat).getD j 0) (allRun 2)
            ((0, 0)) (List (Nat × Nat) × τ) (logSink dst)
            (log, t)).2.1.1 = 0 + m ∧
        (enumerateRun (fun j => ([4, 5] : List Nat).getD j 0) (allRun 2)
            ((0, 0)) (List (Nat × Nat) × τ) (logSink dst)
            (log, t)).2.2.1
          = log ++ (enumList (fun j => ([4, 5] : List Nat).getD j 0) 0
              (List.range' 0 2)).take m) ∧
    (∀ (τ : Type) (dst : Sink (Nat × Nat) τ) (t : τ)
        (log : List (Nat × Nat)) (extra : Nat),
      ∃ st', driveN (enumerateRun (fun j => ([4, 5] : List Nat).getD j 0)
          (allRun 2)) (logSink dst)
          ((List.range' 0 2).length + 1 + extra) ((0, 0)) (log, t)
        = (true, st',
           (log ++ enumList (fun j => ([4, 5] : List Nat).getD j 0) 0
              (List.range' 0 2),
            feedAll dst (enumList (fun j => ([4, 5] : List Nat).getD j 0) 0
              (List.range' 0 2)) t))) ∧
    ((enumList (fun j => ([4, 5] : List Nat).getD j 0) 0
        (List.range' 0 2)).map Prod.fst
      = List.range' 0 (List.range' 0 2).length) ∧
    ((enumList (fun j => ([4, 5] : List Nat).getD j 0) 0
        (List.range' 0 2)).map Prod.snd
      = (List.range' 0 2).map (fun j => ([4, 5] : List Nat).getD j 0)) ∧
    ((enumerate (fun j => ([4, 5] : List Nat).getD j 0)
        ⟨allRun 2, 0⟩).st = ((0 : Nat), 0))) :=
  C9_enumerate_pairs_with_index (fun j => ([4, 5] : List Nat).getD j 0)
    (allRun 2) 0 (List.range' 0 2)
    (by simpa using allRun_models 2 2 0 (by omega) (by omega)) 0

/-! ### partial_sum (transrangers_ext.hpp lines 191-198).

`partial_sum(rgr, init)` drives the ranger once with the sink
`init = std::move(init) + *p; *p = init; return true;` — it folds the
running sum and writes it back through the cursor's mutable dereference
into the underlying source.  The mutable source lives in the sink state as
an explicit list; the cursor is the index written through.  The machine
`int` elements are modeled as `Int`. -/

def psumSink : Sink Nat (Int × List Int) := fun p st =>
  let a := st.1 + st.2.getD p 0
  (true, (a, st.2.set p a))

/-- Returns the final accumulated value, the mutated source, and the
invocation's result. -/
def psum {σ : Type} (r : Ranger Nat σ) (init : Int) (v : List Int) :
    Int × List Int × Bool :=
  let o := r.run r.st (Int × List Int) psumSink (init, v)
  (o.2.2.1, o.2.2.2, o.1)

/-- Running sums of a list after an initial accumulator. -/
def psums : Int → List Int → List Int
  | _, [] => []
  | a, x :: xs => (a + x) :: psums (a + x) xs

theorem set_eq_of_drop {α : Type} :
    ∀ (v : List α) (k : Nat) (T : List α) (x a : α), v.drop k = x :: T →
      v.set k a = v.take k ++ a :: T := by
  intro v
  induction v with
  | nil => intro k T x a h; simp at h
  | cons y v ih =>
    intro k T x a h
    cases k with
    | zero =>
      simp only [List.drop_zero] at h
      cases h
      simp
    | succ k =>
      simp only [List.drop_succ_cons] at h
      rw [List.set_cons_succ, List.take_succ_cons, ih k T x a h,
        List.cons_append]

/-- Feeding a contiguous index block through the write-back sink: the
accumulator gains the sum of the visited segment, and the visited segment
of the source is replaced by its running sums (the rest untouched). -/
theorem feedAll_psumSink :
    ∀ (m k : Nat) (a : Int) (v : List Int), k + m ≤ v.length →
      feedAll psumSink (List.range' k m) (a, v)
        = (a + ((v.drop k).take m).sum,
           v.take k ++ psums a ((v.drop k).take m) ++ v.drop (k + m)) := by
  intro m
  induction m with
  | zero =>
    intro k a v hkm
    simp [feedAll, psums, List.take_append_drop]
  | succ m ih =>
    intro k a v hkm
    cases hdk : v.drop k with
    | nil =>
      have := congrArg List.length hdk
      simp only [List.length_drop, List.length_nil] at this
      omega
    | cons x T =>
      have hget : v.getD k 0 = x := getD_of_drop v T x k 0 hdk
      have hset : v.set k (a + x) = v.take k ++ (a + x) :: T :=
        set_eq_of_drop v k T x (a + x) hdk
      have hstep : feedAll psumSink (List.range' k (m + 1)) (a, v)
          = feedAll psumSink (List.range' (k + 1) m)
              (a + x, v.take k ++ (a + x) :: T) := by
        rw [List.range'_succ k m 1]
        simp only [feedAll, psumSink, hget, hset]
      have htklen : (v.take k).length = k := by
        rw [List.length_take]
        omega
      have hlen' : k + 1 + m ≤ (v.take k ++ (a + x) :: T).length := by
        have hT := congrArg List.length hdk
        simp only [List.length_drop, List.length_cons] at hT
        simp only [List.length_append, htklen, List.length_cons]
        omega
      rw [hstep, ih (k + 1) (a + x) (v.take k ++ (a + x) :: T) hlen']
      have hdrop1 : (v.take k ++ (a + x) :: T).drop (k + 1) = T := by
        have : k + 1 = (v.take k).length + 1 := by rw [htklen]
        rw [this, List.drop_append 1, List.drop_one, List.tail_cons]
      have htake1 : (v.take k ++ (a + x) :: T).take (k + 1)
          = v.take k ++ [a + x] := by
        have : k + 1 = (v.take k).length + 1 := by rw [htklen]
        rw [this, List.take_append 1, List.take_succ_cons, List.take_zero]
      have hdropkm : (v.take k ++ (a + x) :: T).drop (k + 1 + m)
          = T.drop m := by
        have : k + 1 + m = (v.take k).length + (1 + m) := by
          rw [htklen]; omega
        rw [this, List.drop_append (1 + m)]
        have h1 : (1 : Nat) + m = m + 1 := by omega
        rw [h1, List.drop_succ_cons]
      have hTd : v.drop (k + 1) = T := drop_succ_of_drop v T x k hdk
      have hdropv : v.drop (k + (m + 1)) = T.drop m := by
        have h2 : k + (m + 1) = (k + 1) + m := by omega
        rw [h2, ← List.drop_drop, hTd]
      rw [hdrop1, htake1, hdropkm, hdropv]
      simp only [List.take_succ_cons, psums, List.sum_cons]
      rw [Prod.mk.injEq]
      exact ⟨by ring, by simp [List.append_assoc]⟩

/-- C7: `partial_sum` folds `init = init + *p` over every delivered cursor
and writes each running sum back through the cursor into the underlying
source: (i) over any conforming ranger the single invocation exhausts,
returning the fold-and-write-back of exactly the modeled cursors; (ii)
over `skip_first` of a nonempty source the result is the sum of the tail
added to `init`, the head is untouched, and the tail is replaced by its
running sums; (iii) concretely, over [1,2,3,4] skipping the first element
with initial value 1, the result is 10 and the mutated source is
[1,3,6,10] (its last element 10). -/
theorem C7_partial_sum_writes_back (x : Int) (xs : List Int) (init : Int) :
    (∀ (σ' : Type) (run : RangerRun Nat σ') (s : σ') (I : List Nat),
      Models run s I → ∀ (a : Int) (v : List Int),
      psum ⟨run, s⟩ a v
        = ((feedAll psumSink I (a, v)).1, (feedAll psumSink I (a, v)).2,
           true)) ∧
    psum (skip_first (x :: xs)) init (x :: xs)
      = (init + xs.sum, x :: psums init xs, true) ∧
    psum (skip_first ([1, 2, 3, 4] : List Int)) 1 ([1, 2, 3, 4] : List Int)
      = (10, [1, 3, 6, 10], true) := by
  have hgen : ∀ (σ' : Type) (run : RangerRun Nat σ') (s : σ') (I : List Nat),
      Models run s I → ∀ (a : Int) (v : List Int),
      psum ⟨run, s⟩ a v
        = ((feedAll psumSink I (a, v)).1, (feedAll psumSink I (a, v)).2,
           true) := by
    intro σ' run s I hm a v
    obtain ⟨e1, e2, _⟩ := (Models_def run s I).mp hm (Int × List Int)
      psumSink (a, v)
    rw [walk_of_cont psumSink (fun _ _ => rfl)] at e1 e2
    show (_, _, _) = _
    rw [Prod.mk.injEq]
    refine ⟨?_, ?_⟩
    · have := congrArg (fun z => z.1) e2
      dsimp only at this
      exact this
    · rw [Prod.mk.injEq]
      refine ⟨?_, e1⟩
      have := congrArg (fun z => z.2) e2
      dsimp only at this
      exact this
  refine ⟨hgen, ?_, by decide⟩
  have hmodels : Models (allRun (x :: xs).length) 1 (List.range' 1 xs.length) := by
    have h := allRun_models (x :: xs).length (x :: xs).length 1 (by omega)
      (by simp)
    simpa using h
  have := hgen Nat (allRun (x :: xs).length) 1 (List.range' 1 xs.length)
    hmodels init (x :: xs)
  rw [show psum (skip_first (x :: xs)) init (x :: xs)
      = psum ⟨allRun (x :: xs).length, 1⟩ init (x :: xs) from rfl, this]
  have hfeed := feedAll_psumSink xs.length 1 init (x :: xs)
    (by simp [Nat.add_comm])
  rw [hfeed]
  have hd1 : (x :: xs).drop 1 = xs := rfl
  have ht1 : (x :: xs).take 1 = [x] := rfl
  have htx : xs.take xs.length = xs := List.take_length xs
  have hde : (x :: xs).drop (1 + xs.length) = [] := by
    rw [Nat.add_comm, List.drop_succ_cons, List.drop_length]
  rw [hd1, ht1, htx, hde]
  simp

/-- Closed witness for C7's generic fold/write-back conjunct at a concrete
ranger. -/
theorem C7_witness :
    psum ⟨allRun 2, 0⟩ 5 ([7, 8] : List Int)
      = ((feedAll psumSink (List.range' 0 2) (5, [7, 8])).1,
         (feedAll psumSink (List.range' 0 2) (5, [7, 8])).2, true) :=
  (C7_partial_sum_writes_back 1 [2] 0).1 Nat (allRun 2) 0 (List.range' 0 2)
    (by simpa using allRun_models 2 2 0 (by omega) (by omega)) 5 [7, 8]

end Transrangers


